import Mathlib

/-!
Verification of the zk_evm block-trace decoder core
(`trace_decoder/src/core.rs`): a shallow embedding of the data model and
of the functions `batch`, `middle`, `do_beacon_hook`, `map_receipt_bytes`
and `entrypoint`, followed by theorems settling the spec claims.

Machine integers (`U256`, `u64`, addresses) are modelled as `Nat`; none of
the verified claims concern overflow.  Byte strings are `List Nat`.
Keccak-256 is modelled as a symbolic injective function of the exact input
byte string, which is faithful for every use the decoder makes of it.
-/

namespace TD

/-- Big-endian byte string of `n`, exactly `k` bytes wide. -/
def beBytes : Nat → Nat → List Nat
  | 0, _ => []
  | k + 1, n => beBytes k (n / 256) ++ [n % 256]

/-- Minimal big-endian byte string of `n` (empty for `0`); fuelled recursion. -/
def beBytesMinimalGo : Nat → Nat → List Nat
  | 0, _ => []
  | fuel + 1, n => if n = 0 then [] else beBytesMinimalGo fuel (n / 256) ++ [n % 256]

def beBytesMinimal (n : Nat) : List Nat := beBytesMinimalGo n n

/-- Ethereum-canonical RLP encoding of an unsigned integer
(used for storage values; values are below 2^256 so the payload is short). -/
def rlpNat (n : Nat) : List Nat :=
  if n = 0 then [0x80]
  else if n < 0x80 then [n]
  else (0x80 + (beBytesMinimal n).length) :: beBytesMinimal n

/-- 32-byte hashes.  `raw` is a literal 32-byte value supplied in the input;
`keccakBytes bs` is the symbolic Keccak-256 digest of the byte string `bs`. -/
inductive H256 where
  | raw : Nat → H256
  | keccakBytes : List Nat → H256
deriving DecidableEq, Repr

/-- `keccak_hash::keccak` of a 20-byte address. -/
def keccakAddr (a : Nat) : H256 := .keccakBytes (beBytes 20 a)

/-- `keccak_hash::keccak` of a 32-byte storage-slot key. -/
def keccakSlot (k : Nat) : H256 := .keccakBytes (beBytes 32 k)

/-- Flat encoding of a hash used when forming symbolic trie roots. -/
def H256.encode : H256 → List Nat
  | .raw n => 0 :: beBytes 32 n
  | .keccakBytes bs => 1 :: bs

/-- Modelled from the spec: `TrieKey`, an MPT nibble path.  The decoder core
only builds keys that are either empty (`TrieKey::default()`) or the 64
nibbles of a 32-byte hash, so those are the two constructors kept. -/
inductive TrieKey where
  | empty : TrieKey
  | ofHash : H256 → TrieKey
deriving DecidableEq, Repr

/-- `TrieKey::from_hash`. -/
def TrieKey.fromHash (h : H256) : TrieKey := .ofHash h

/-- `TrieKey::from_address`: the address is hashed first. -/
def TrieKey.fromAddress (a : Nat) : TrieKey := .ofHash (keccakAddr a)

def TrieKey.encode : TrieKey → List Nat
  | .empty => [0]
  | .ofHash h => 1 :: h.encode

/-- Association-list lookup (first binding wins), modelling `BTreeMap` access. -/
def alookup {κ ν : Type} [DecidableEq κ] : List (κ × ν) → κ → Option ν
  | [], _ => none
  | (k, v) :: rest, key => if k = key then some v else alookup rest key

/-- Association-list insert-or-replace, modelling `BTreeMap::insert`. -/
def ainsert {κ ν : Type} [DecidableEq κ] : List (κ × ν) → κ → ν → List (κ × ν)
  | [], key, val => [(key, val)]
  | (k, v) :: rest, key, val =>
    if k = key then (key, val) :: rest else (k, v) :: ainsert rest key val

/-- Association-list removal, modelling `BTreeMap::remove`. -/
def aerase {κ ν : Type} [DecidableEq κ] : List (κ × ν) → κ → List (κ × ν)
  | [], _ => []
  | (k, v) :: rest, key => if k = key then rest else (k, v) :: aerase rest key

/-- Set-semantics insertion into a list, modelling `BTreeSet::insert`. -/
def setInsert {α : Type} [DecidableEq α] (s : List α) (x : α) : List α :=
  if x ∈ s then s else s ++ [x]

/-- Set-semantics extension, modelling `BTreeSet::extend`. -/
def setExtend {α : Type} [DecidableEq α] (s : List α) (xs : List α) : List α :=
  xs.foldl setInsert s

/-- `Result`-propagating fold, modelling a `for` loop with `?` in its body. -/
def exceptFoldl {ε σ α : Type} (f : σ → α → Except ε σ) : List α → σ → Except ε σ
  | [], s => .ok s
  | x :: xs, s =>
    match f s x with
    | .error e => .error e
    | .ok s' => exceptFoldl f xs s'

/-- Modelled from the spec: an account record (`AccountRlp`).  The empty
account has zero nonce and balance, the empty-trie storage root, and the
hash of the empty byte string as code hash. -/
structure AccountRlp where
  nonce : Nat
  balance : Nat
  storage_root : H256
  code_hash : H256
deriving DecidableEq, Repr

def emptyTrieRootHash : H256 := .keccakBytes [0x80]

def AccountRlp.defaultAcct : AccountRlp :=
  { nonce := 0, balance := 0, storage_root := emptyTrieRootHash,
    code_hash := .keccakBytes [] }

/-- Modelled from the spec: a typed storage MPT (`StorageTrie` in
`typed_mpt`, whose source is not part of this repository snapshot).
`entries` are inserted key/value bindings; `hashes` are subtrees known only
by hash, attached with `insert_hash`.  Structural-collapse reporting of
`reporting_remove` is abstracted as the empty report. -/
structure StorageTrie where
  entries : List (TrieKey × List Nat)
  hashes : List (TrieKey × H256)
deriving DecidableEq, Repr

def StorageTrie.defaultTrie : StorageTrie := { entries := [], hashes := [] }

def StorageTrie.insert (t : StorageTrie) (k : TrieKey) (v : List Nat) : StorageTrie :=
  { t with entries := ainsert t.entries k v }

def StorageTrie.insertHash (t : StorageTrie) (k : TrieKey) (h : H256) : StorageTrie :=
  { t with hashes := ainsert t.hashes k h }

def encodeStorageEntries : List (TrieKey × List Nat) → List Nat
  | [] => []
  | (k, v) :: rest => k.encode ++ v ++ encodeStorageEntries rest

def encodeStorageHashes : List (TrieKey × H256) → List Nat
  | [] => []
  | (k, h) :: rest => k.encode ++ h.encode ++ encodeStorageHashes rest

/-- Modelled from the spec: `root()` of a storage trie.  A trie that is
exactly one `insert_hash` at the empty path has that hash as its root (the
whole trie is a single hash node); any other shape gets a symbolic root.  -/
def StorageTrie.root (t : StorageTrie) : H256 :=
  match t.entries, t.hashes with
  | [], [(TrieKey.empty, h)] => h
  | es, hs => .keccakBytes (2 :: encodeStorageEntries es ++ encodeStorageHashes hs)

/-- Modelled from the spec: `reporting_remove` deletes a key and reports the
sibling keys that structurally collapsed; collapse reporting is abstracted
as the empty report here (the normal case per the spec's design notes). -/
def StorageTrie.reportingRemove (t : StorageTrie) (k : TrieKey) :
    StorageTrie × List TrieKey :=
  ({ t with entries := aerase t.entries k }, [])

/-- Modelled from the spec: `mask(keep_set)` prunes the trie to the witness
for the kept keys; modelled as restriction of the bindings to the kept keys. -/
def StorageTrie.mask (t : StorageTrie) (keep : List TrieKey) : StorageTrie :=
  { entries := t.entries.filter (fun p => p.1 ∈ keep),
    hashes := t.hashes.filter (fun p => p.1 ∈ keep) }

/-- Modelled from the spec: the state MPT (`StateMpt`), a map from hashed
address to account record. -/
structure StateMpt where
  inner : List (H256 × AccountRlp)
deriving DecidableEq, Repr

def StateMpt.getByAddress (t : StateMpt) (a : Nat) : Option AccountRlp :=
  alookup t.inner (keccakAddr a)

def StateMpt.insertByAddress (t : StateMpt) (a : Nat) (acct : AccountRlp) : StateMpt :=
  { inner := ainsert t.inner (keccakAddr a) acct }

/-- Modelled from the spec: `reporting_remove` on the state trie, with the
collapse report abstracted as empty as for storage tries. -/
def StateMpt.reportingRemove (t : StateMpt) (a : Nat) : StateMpt × List TrieKey :=
  ({ inner := aerase t.inner (keccakAddr a) }, [])

/-- Modelled from the spec: `mask` on the state trie. -/
def StateMpt.mask (t : StateMpt) (keep : List TrieKey) : StateMpt :=
  { inner := t.inner.filter (fun p => TrieKey.ofHash p.1 ∈ keep) }

def encodeAccount (a : AccountRlp) : List Nat :=
  beBytes 32 a.nonce ++ beBytes 32 a.balance ++ a.storage_root.encode ++ a.code_hash.encode

def encodeStateEntries : List (H256 × AccountRlp) → List Nat
  | [] => []
  | (h, a) :: rest => h.encode ++ encodeAccount a ++ encodeStateEntries rest

def StateMpt.root (t : StateMpt) : H256 :=
  .keccakBytes (3 :: encodeStateEntries t.inner)

/-- Modelled from the spec: receipt bytes arriving from upstream are either
canonical legacy RLP, a typed envelope, or malformed; the decoder only
inspects whether they parse and what the receipt's status bit is, so the
three cases carry exactly that information. -/
inductive ReceiptBytes where
  | legacy (status : Bool) (payload : List Nat)
  | typed (status : Bool) (payload : List Nat)
  | invalid (raw : List Nat)
deriving DecidableEq, Repr

/-- Errors of the decoder core (`anyhow` contexts in the source, made
structured here so that theorems can talk about which error occurred). -/
inductive Err where
  | inconsistentInitialStorage (haddr : H256)
  | missingStorageTrie (addr : Nat)
  | missingBeaconStorage
  | missingBeaconAccount
  | missingWithdrawalAddress (addr : Nat)
  | unknownCode (hash : H256)
  | invalidReceipt
  | emptyInputs
deriving DecidableEq, Repr

/-- `map_receipt_bytes`: pass receipt bytes through if they parse as a
legacy receipt or as a typed envelope, else fail. -/
def map_receipt_bytes : ReceiptBytes → Except Err ReceiptBytes
  | .legacy s p => .ok (.legacy s p)
  | .typed s p => .ok (.typed s p)
  | .invalid _ => .error .invalidReceipt

/-- Modelled from the spec: `decode_receipt` (in `evm_arithmetization`,
not part of this snapshot) reads the receipt's status bit. -/
def decode_receipt : ReceiptBytes → Except Err Bool
  | .legacy s _ => .ok s
  | .typed s _ => .ok s
  | .invalid _ => .error .invalidReceipt

inductive ContractCodeUsage where
  | read (hash : H256)
  | write (code : List Nat)
deriving DecidableEq, Repr

structure TxnTrace where
  balance : Option Nat := none
  nonce : Option Nat := none
  storage_read : List Nat := []
  storage_written : List (Nat × Nat) := []
  code_usage : Option ContractCodeUsage := none
  self_destructed : Bool := false
deriving DecidableEq, Repr

def TxnTrace.defaultTrace : TxnTrace := {}

structure TxnMeta where
  byte_code : List Nat
  new_receipt_trie_node_byte : ReceiptBytes
  gas_used : Nat
deriving DecidableEq, Repr

structure TxnInfo where
  traces : List (Nat × TxnTrace)
  meta : TxnMeta
deriving DecidableEq, Repr

/-- `TxnInfo::default()`: no traces, empty byte code, empty (hence
unparseable) receipt bytes, zero gas. -/
def TxnInfo.defaultInfo : TxnInfo :=
  { traces := [], meta := { byte_code := [], new_receipt_trie_node_byte := .invalid [], gas_used := 0 } }

/-- `Hash2Code`: map from Keccak-256(code) to code, pre-seeded with the
empty byte string. -/
structure Hash2Code where
  inner : List (H256 × List Nat)
deriving DecidableEq, Repr

def Hash2Code.insert (c : Hash2Code) (code : List Nat) : Hash2Code :=
  { inner := ainsert c.inner (.keccakBytes code) code }

def Hash2Code.new : Hash2Code := Hash2Code.insert { inner := [] } []

def Hash2Code.get (c : Hash2Code) (h : H256) : Except Err (List Nat) :=
  match alookup c.inner h with
  | some code => .ok code
  | none => .error (.unknownCode h)

def Hash2Code.extendList (c : Hash2Code) (codes : List (List Nat)) : Hash2Code :=
  codes.foldl Hash2Code.insert c

/-- `chunksOf` with fuel, mirroring `Itertools::chunks` for a positive
chunk size. -/
def chunksOfGo {α : Type} (h : Nat) : Nat → List α → List (List α)
  | _, [] => []
  | 0, l => [l]
  | fuel + 1, l => l.take h :: chunksOfGo h fuel (l.drop h)

def chunksOf {α : Type} (h : Nat) (xs : List α) : List (List α) :=
  chunksOfGo h xs.length xs

/-- `Itertools::pad_using(2, |_| None)`. -/
def padUsing2 {α : Type} (xs : List (Option α)) : List (Option α) :=
  xs ++ List.replicate (2 - xs.length) none

/-- `batch`: break `txns` into batches of length `batch_size_hint`,
prioritising creating at least two batches.  `none` is a dummy transaction
that does not increment the transaction index. -/
def batch (txns : List TxnInfo) (batch_size_hint : Nat) : List (List (Option TxnInfo)) :=
  let hint := max batch_size_hint 1
  let txns' := txns.map some
  let n_batches := (chunksOf hint txns').length
  if 2 ≤ n_batches then
    chunksOf hint txns'
  else if 2 ≤ txns'.length then
    [txns'.take (txns'.length / 2), txns'.drop (txns'.length / 2)]
  else
    (padUsing2 txns').map (fun it => [it])

/-- Modelled from the spec: `BEACON_ROOTS_CONTRACT_ADDRESS` (EIP-4788). -/
def BEACON_ROOTS_CONTRACT_ADDRESS : Nat := 0x000F3df6D732807Ef1319fB7B8bB8522d0Beac02

/-- Modelled from the spec: `HISTORY_BUFFER_LENGTH = 8191` (EIP-4788). -/
def HISTORY_BUFFER_LENGTH : Nat := 8191

/-- `PRECOMPILE_ADDRESSES.contains`: the half-open Rust range
`0x…01 .. 0x…0a`. -/
def inPrecompileRange (a : Nat) : Bool := decide (1 ≤ a) && decide (a < 0xa)

/-- The state threaded through the per-address trace loop of `middle`
(the variables that loop mutates). -/
structure TraceCtx where
  state_trie : StateMpt
  storage_tries : List (H256 × StorageTrie)
  code : Hash2Code
  batch_contract_code : List (List Nat)
  storage_masks : List (Nat × List TrieKey)
  state_mask : List TrieKey
deriving DecidableEq, Repr

/-- Resolution of `ContractCodeUsage` in the write arm of the trace step
(`core.rs` lines 421-435): a read fetches the code (possibly failing) and
registers it in the batch's contract code, a write registers the bytes and
hashes them; `default_hash` is the account's previous code hash. -/
def resolveCodeUsage (default_hash : H256) (cu : Option ContractCodeUsage)
    (code : Hash2Code) (bcc : List (List Nat)) :
    Except Err (H256 × Hash2Code × List (List Nat)) :=
  match cu with
  | none => .ok (default_hash, code, bcc)
  | some (.read h) =>
    match code.get h with
    | .error e => .error e
    | .ok c => .ok (h, code, setInsert bcc c)
  | some (.write bytes) =>
    .ok (H256.keccakBytes bytes, code.insert bytes, setInsert bcc bytes)

/-- One written storage slot (`core.rs` lines 445-454): a zero value is a
delete via `reporting_remove` whose report extends the storage mask, a
non-zero value is RLP-inserted. -/
def writeSlots (acc : StorageTrie × List TrieKey) (p : Nat × Nat) :
    StorageTrie × List TrieKey :=
  let slot := TrieKey.fromHash (keccakSlot p.1)
  if p.2 = 0 then
    let rem := acc.1.reportingRemove slot
    (rem.1, setExtend acc.2 rem.2)
  else (acc.1.insert slot (rlpNat p.2), acc.2)

/-- The self-destruct epilogue of the trace step (`core.rs` lines 474-477). -/
def sdFinish (self_destructed : Bool) (addr : Nat) (tc : TraceCtx) : TraceCtx :=
  if self_destructed then
    { tc with
      storage_tries := aerase tc.storage_tries (keccakAddr addr),
      state_trie := (tc.state_trie.reportingRemove addr).1,
      state_mask := setExtend tc.state_mask (tc.state_trie.reportingRemove addr).2 }
  else tc

/-- The step applied in `middle` for one `(addr, trace)` pair of a
transaction (`core.rs` lines 363-478).  The probe insert into a discarded
clone of the state trie cannot fail in this embedding (inserts are total),
so it has no effect and is omitted. -/
def applyTrace (rct : ReceiptBytes) (addr : Nat) (trc : TxnTrace) (tc : TraceCtx) :
    Except Err TraceCtx :=
  let just_access := trc = TxnTrace.defaultTrace
  match map_receipt_bytes rct with
  | .error e => .error e
  | .ok mapped =>
  match decode_receipt mapped with
  | .error e => .error e
  | .ok status =>
  let fetched := tc.state_trie.getByAddress addr
  let acct := fetched.getD AccountRlp.defaultAcct
  let born := fetched.isNone
  let do_writes := ¬just_access ∧ (if born then status = true else True)
  let storage_mask0 := (alookup tc.storage_masks addr).getD []
  let storage_mask1 := setExtend storage_mask0
    ((trc.storage_written.map Prod.fst ++ trc.storage_read).map
      (fun k => TrieKey.fromHash (keccakSlot k)))
  let step : Except Err TraceCtx :=
    if do_writes then
      let acctA := { acct with balance := trc.balance.getD acct.balance,
                               nonce := trc.nonce.getD acct.nonce }
      match resolveCodeUsage acct.code_hash trc.code_usage tc.code
          tc.batch_contract_code with
      | .error e => .error e
      | .ok (code_hash, code', bcc') =>
      let acctB := { acctA with code_hash := code_hash }
      match (if trc.storage_written = [] then
               Except.ok (acctB, tc.storage_tries, storage_mask1)
             else
               match (if born then
                        Except.ok ((alookup tc.storage_tries (keccakAddr addr)).getD
                          StorageTrie.defaultTrie)
                      else
                        match alookup tc.storage_tries (keccakAddr addr) with
                        | some s => Except.ok s
                        | none => Except.error (Err.missingStorageTrie addr)) with
               | .error e => .error e
               | .ok storage0 =>
                 let folded := trc.storage_written.foldl writeSlots
                   (storage0, storage_mask1)
                 .ok ({ acctB with storage_root := folded.1.root },
                      ainsert tc.storage_tries (keccakAddr addr) folded.1,
                      folded.2)) with
      | .error e => .error e
      | .ok (acctC, storage_tries', storage_mask2) =>
        .ok { tc with
              state_trie := tc.state_trie.insertByAddress addr acctC,
              storage_tries := storage_tries',
              code := code',
              batch_contract_code := bcc',
              storage_masks := ainsert tc.storage_masks addr storage_mask2,
              state_mask := setInsert tc.state_mask (TrieKey.fromAddress addr) }
    else
      .ok { tc with
            storage_masks := ainsert tc.storage_masks addr storage_mask1,
            state_mask :=
              if status || !(inPrecompileRange addr) then
                setInsert tc.state_mask (TrieKey.fromAddress addr)
              else tc.state_mask }
  match step with
  | .error e => .error e
  | .ok tc' => .ok (sdFinish trc.self_destructed addr tc')

/-- The state threaded through the per-transaction loop of one batch. -/
structure St where
  trace : TraceCtx
  transaction_trie : List (Nat × List Nat)
  receipt_trie : List (Nat × ReceiptBytes)
  txn_ix : Nat
  loop_ix : Nat
  batch_gas_used : Nat
  batch_byte_code : List (List Nat)
deriving DecidableEq, Repr

/-- The step applied in `middle` for one batch slot (`core.rs` lines
340-484): a real transaction, or a dummy treated as `TxnInfo::default()`. -/
def applyTxn (slot : Option TxnInfo) (s : St) : Except Err St :=
  let info := slot.getD TxnInfo.defaultInfo
  let withBytes : Except Err St :=
    if info.meta.byte_code = [] then .ok s
    else
      match map_receipt_bytes info.meta.new_receipt_trie_node_byte with
      | .error e => .error e
      | .ok mapped =>
        .ok { s with
              batch_byte_code := s.batch_byte_code ++ [info.meta.byte_code],
              transaction_trie := ainsert s.transaction_trie s.txn_ix info.meta.byte_code,
              receipt_trie := ainsert s.receipt_trie s.txn_ix mapped }
  match withBytes with
  | .error e => .error e
  | .ok s1 =>
  let s2 := { s1 with batch_gas_used := s1.batch_gas_used + info.meta.gas_used }
  match exceptFoldl
      (fun tc (p : Nat × TxnTrace) =>
        applyTrace info.meta.new_receipt_trie_node_byte p.1 p.2 tc)
      info.traces s2.trace with
  | .error e => .error e
  | .ok tc =>
    .ok { s2 with
          trace := tc,
          txn_ix := s2.txn_ix + (if slot.isSome then 1 else 0),
          loop_ix := s2.loop_ix + 1 }

/-- One iteration of the slot loop of `do_beacon_hook` (`core.rs` lines
559-578): the slot key is the keccak of the 32-byte big-endian slot index;
the slot is admitted to the beacon storage mask, and the value is removed
(reporting collapsed siblings into the mask) when zero, else RLP-inserted. -/
def beaconSlotStep (acc : StorageTrie × List TrieKey) (p : Nat × Nat) :
    StorageTrie × List TrieKey :=
  let slot := TrieKey.fromHash (H256.keccakBytes (beBytes 32 p.1))
  let trim := setInsert acc.2 slot
  if p.2 = 0 then
    let rem := acc.1.reportingRemove slot
    (rem.1, setExtend trim rem.2)
  else (acc.1.insert slot (rlpNat p.2), setInsert trim slot)

/-- `do_beacon_hook` (`core.rs` lines 543-590): the EIP-4788 storage write,
acting on the same variables as the trace loop. -/
def do_beacon_hook (block_timestamp parent_beacon_block_root : Nat) (tc : TraceCtx) :
    Except Err TraceCtx :=
  let history_timestamp := block_timestamp % HISTORY_BUFFER_LENGTH
  let history_timestamp_next := history_timestamp + HISTORY_BUFFER_LENGTH
  match alookup tc.storage_tries (keccakAddr BEACON_ROOTS_CONTRACT_ADDRESS) with
  | none => .error .missingBeaconStorage
  | some beacon_storage0 =>
    let beacon_trim0 := (alookup tc.storage_masks BEACON_ROOTS_CONTRACT_ADDRESS).getD []
    let folded := [(history_timestamp, block_timestamp),
                   (history_timestamp_next, parent_beacon_block_root)].foldl
      beaconSlotStep (beacon_storage0, beacon_trim0)
    let state_mask' := setInsert tc.state_mask
      (TrieKey.fromAddress BEACON_ROOTS_CONTRACT_ADDRESS)
    match tc.state_trie.getByAddress BEACON_ROOTS_CONTRACT_ADDRESS with
    | none => .error .missingBeaconAccount
    | some beacon_acct =>
      .ok { tc with
            storage_tries := ainsert tc.storage_tries
              (keccakAddr BEACON_ROOTS_CONTRACT_ADDRESS) folded.1,
            storage_masks := ainsert tc.storage_masks
              BEACON_ROOTS_CONTRACT_ADDRESS folded.2,
            state_mask := state_mask',
            state_trie := tc.state_trie.insertByAddress BEACON_ROOTS_CONTRACT_ADDRESS
              { beacon_acct with storage_root := folded.1.root } }

/-- Withdrawal application of the final batch (`core.rs` lines 493-504). -/
def applyWithdrawals (ws : List (Nat × Nat)) (state_trie : StateMpt)
    (state_mask : List TrieKey) : Except Err (StateMpt × List TrieKey) :=
  match ws with
  | [] => .ok (state_trie, state_mask)
  | (addr, amt) :: rest =>
    let state_mask' := setInsert state_mask (TrieKey.fromAddress addr)
    match state_trie.getByAddress addr with
    | none => .error (.missingWithdrawalAddress addr)
    | some acct =>
      applyWithdrawals rest
        (state_trie.insertByAddress addr { acct with balance := acct.balance + amt })
        state_mask'

structure TrieRoots where
  state_root : H256
  transactions_root : H256
  receipts_root : H256
deriving DecidableEq, Repr

structure IntraBlockTries where
  state : StateMpt
  storage : List (H256 × StorageTrie)
  transaction : List (Nat × List Nat)
  receipt : List (Nat × ReceiptBytes)
deriving DecidableEq, Repr

structure Batch where
  first_txn_ix : Nat
  gas_used : Nat
  contract_code : List (List Nat)
  byte_code : List (List Nat)
  before : IntraBlockTries
  after : TrieRoots
  withdrawals : List (Nat × Nat)
deriving DecidableEq, Repr

/-- `mask` of the transaction trie by an index range (kept indices
`lo ≤ i < hi`). -/
def maskRangeT (t : List (Nat × List Nat)) (lo hi : Nat) : List (Nat × List Nat) :=
  t.filter (fun p => lo ≤ p.1 && p.1 < hi)

/-- `mask` of the receipt trie by an index range. -/
def maskRangeR (t : List (Nat × ReceiptBytes)) (lo hi : Nat) : List (Nat × ReceiptBytes) :=
  t.filter (fun p => lo ≤ p.1 && p.1 < hi)

def transactionTrieRoot (t : List (Nat × List Nat)) : H256 :=
  .keccakBytes (4 :: (t.map (fun p => p.1 :: p.2)).flatten)

def ReceiptBytes.encode : ReceiptBytes → List Nat
  | .legacy s p => 0 :: (if s then 1 else 0) :: p
  | .typed s p => 1 :: (if s then 1 else 0) :: p
  | .invalid r => 2 :: r

def receiptTrieRoot (t : List (Nat × ReceiptBytes)) : H256 :=
  .keccakBytes (5 :: (t.map (fun p => p.1 :: p.2.encode)).flatten)

/-- The per-block state threaded through the batch loop of `middle`.
`out` accumulates the emitted batches; `hook_log` is instrumentation
recording the ordinal of every batch at whose start `do_beacon_hook` ran
(it influences nothing else). -/
structure LoopSt where
  state_trie : StateMpt
  storage_tries : List (H256 × StorageTrie)
  transaction_trie : List (Nat × List Nat)
  receipt_trie : List (Nat × ReceiptBytes)
  code : Hash2Code
  txn_ix : Nat
  loop_ix : Nat
  withdrawals : List (Nat × Nat)
  out : List Batch
  hook_log : List Nat
deriving DecidableEq, Repr

/-- One iteration of the batch loop of `middle` (`core.rs` lines 310-533). -/
def runBatch (ts pbbr loop_len : Nat) (s : LoopSt) (slots : List (Option TxnInfo)) :
    Except Err LoopSt :=
  let batch_first_txn_ix := s.txn_ix
  let before_state := s.state_trie
  let before_transaction := s.transaction_trie
  let before_receipt := s.receipt_trie
  let before_storage := s.storage_tries
  let tc0 : TraceCtx :=
    { state_trie := s.state_trie, storage_tries := s.storage_tries, code := s.code,
      batch_contract_code := [[]], storage_masks := [], state_mask := [] }
  match (if s.txn_ix = 0 then
           match do_beacon_hook ts pbbr tc0 with
           | .error e => Except.error e
           | .ok tc' => Except.ok (tc', s.hook_log ++ [s.out.length])
         else .ok (tc0, s.hook_log)) with
  | .error e => .error e
  | .ok (tc1, log1) =>
  let st0 : St :=
    { trace := tc1, transaction_trie := s.transaction_trie,
      receipt_trie := s.receipt_trie, txn_ix := s.txn_ix, loop_ix := s.loop_ix,
      batch_gas_used := 0, batch_byte_code := [] }
  match exceptFoldl (fun st slot => applyTxn slot st) slots st0 with
  | .error e => .error e
  | .ok st1 =>
  match (if st1.loop_ix = loop_len then
           match applyWithdrawals s.withdrawals st1.trace.state_trie
               st1.trace.state_mask with
           | .error e => Except.error e
           | .ok p => Except.ok (p.1, p.2, s.withdrawals, ([] : List (Nat × Nat)))
         else
           .ok (st1.trace.state_trie, st1.trace.state_mask,
                ([] : List (Nat × Nat)), s.withdrawals)) with
  | .error e => .error e
  | .ok (state_trie2, state_mask2, batch_withdrawals, withdrawals') =>
  let keep := st1.trace.storage_masks.map (fun p => keccakAddr p.1)
  let masked_storage :=
    st1.trace.storage_masks.foldl
      (fun acc p =>
        match alookup acc (keccakAddr p.1) with
        | some t => ainsert acc (keccakAddr p.1) (t.mask p.2)
        | none => acc)
      (before_storage.filter (fun p => p.1 ∈ keep))
  let b : Batch :=
    { first_txn_ix := batch_first_txn_ix,
      gas_used := st1.batch_gas_used,
      contract_code := st1.trace.batch_contract_code,
      byte_code := st1.batch_byte_code,
      before :=
        { state := before_state.mask state_mask2,
          storage := masked_storage,
          transaction := maskRangeT before_transaction batch_first_txn_ix st1.txn_ix,
          receipt := maskRangeR before_receipt batch_first_txn_ix st1.txn_ix },
      after :=
        { state_root := state_trie2.root,
          transactions_root := transactionTrieRoot st1.transaction_trie,
          receipts_root := receiptTrieRoot st1.receipt_trie },
      withdrawals := batch_withdrawals }
  .ok { state_trie := state_trie2,
        storage_tries := st1.trace.storage_tries,
        transaction_trie := st1.transaction_trie,
        receipt_trie := st1.receipt_trie,
        code := st1.trace.code,
        txn_ix := st1.txn_ix,
        loop_ix := st1.loop_ix,
        withdrawals := withdrawals',
        out := s.out ++ [b],
        hook_log := log1 }

def middleGo (ts pbbr loop_len : Nat) :
    List (List (Option TxnInfo)) → LoopSt → Except Err LoopSt
  | [], s => .ok s
  | b :: rest, s =>
    match runBatch ts pbbr loop_len s b with
    | .error e => .error e
    | .ok s' => middleGo ts pbbr loop_len rest s'

/-- Phase A of `middle` (`core.rs` lines 287-299): storage-root
reconciliation over the accounts of the initial state trie. -/
def initStorageTries :
    List (H256 × AccountRlp) → List (H256 × StorageTrie) →
    Except Err (List (H256 × StorageTrie))
  | [], st => .ok st
  | (haddr, acct) :: rest, st =>
    let fetched :=
      match alookup st haddr with
      | some s => (s, st)
      | none =>
        let synth := StorageTrie.insertHash StorageTrie.defaultTrie TrieKey.empty
          acct.storage_root
        (synth, ainsert st haddr synth)
    if fetched.1.root = acct.storage_root then initStorageTries rest fetched.2
    else .error (.inconsistentInitialStorage haddr)

/-- `middle`: the replay and witness builder.  Returns the emitted batches
together with the ghost log of beacon-hook executions (see `LoopSt`). -/
def middle (state_trie : StateMpt) (storage_tries : List (H256 × StorageTrie))
    (batches : List (List (Option TxnInfo))) (code : Hash2Code)
    (block_timestamp parent_beacon_block_root : Nat)
    (withdrawals : List (Nat × Nat)) : Except Err (List Batch × List Nat) :=
  match initStorageTries state_trie.inner storage_tries with
  | .error e => .error e
  | .ok storage_tries' =>
    let loop_len := batches.flatten.length
    match middleGo block_timestamp parent_beacon_block_root loop_len batches
        { state_trie := state_trie, storage_tries := storage_tries',
          transaction_trie := [], receipt_trie := [], code := code,
          txn_ix := 0, loop_ix := 0, withdrawals := withdrawals,
          out := [], hook_log := [] } with
    | .error e => .error e
    | .ok s => .ok (s.out, s.hook_log)

/-- Modelled from the spec: `gwei_to_wei` (in `zk_evm_common`, not part of
this snapshot) multiplies by 10^9. -/
def gwei_to_wei (amt : Nat) : Nat := amt * 10 ^ 9

/-- The fields of a `GenerationInputs` this development talks about; the
block metadata, checkpoint and burn-address fields of the source are copied
verbatim from the block-level input and are omitted. -/
structure GenerationInputs where
  txn_number_before : Nat
  gas_used_before : Nat
  gas_used_after : Nat
  signed_txns : List (List Nat)
  withdrawals : List (Nat × Nat)
  tries : IntraBlockTries
  trie_roots_after : TrieRoots
  contract_code : List (H256 × List Nat)
deriving DecidableEq, Repr

/-- The shaping fold of the entrypoint (`core.rs` lines 73-119), carrying
the running gas sum across batches. -/
def genInputsGo (running : Nat) : List Batch → List GenerationInputs
  | [] => []
  | b :: rest =>
    { txn_number_before := b.first_txn_ix,
      gas_used_before := running,
      gas_used_after := running + b.gas_used,
      signed_txns := b.byte_code,
      withdrawals := b.withdrawals,
      tries := b.before,
      trie_roots_after := b.after,
      contract_code := b.contract_code.map (fun c => (H256.keccakBytes c, c)) }
      :: genInputsGo (running + b.gas_used) rest

def genInputs (bs : List Batch) : List GenerationInputs := genInputsGo 0 bs

/-- `entrypoint` (`core.rs` lines 32-120).  The pre-image parsing stage
`start` is elided: its outputs (the initial tries and parsed code) are
taken directly as arguments, and `code_db` is merged into the code registry
exactly as in the source. -/
def entrypoint (state : StateMpt) (storage : List (H256 × StorageTrie))
    (code_db : List (List Nat)) (txn_info : List TxnInfo)
    (withdrawals : List (Nat × Nat)) (block_timestamp parent_beacon_block_root : Nat)
    (batch_size_hint : Nat) : Except Err (List GenerationInputs) :=
  if batch_size_hint = 0 then .error .emptyInputs
  else
    let code := Hash2Code.extendList Hash2Code.new code_db
    let withdrawals' := withdrawals.map (fun p => (p.1, gwei_to_wei p.2))
    match middle state storage (batch txn_info batch_size_hint) code
        block_timestamp parent_beacon_block_root withdrawals' with
    | .error e => .error e
    | .ok r => .ok (genInputs r.1)

/-- Gas carried by a list of batch slots (dummies carry zero gas). -/
def slotsGas (slots : List (Option TxnInfo)) : Nat :=
  (slots.map (fun o => (o.getD TxnInfo.defaultInfo).meta.gas_used)).sum

/-- Number of real (non-dummy) slots. -/
def countSome (slots : List (Option TxnInfo)) : Nat :=
  slots.countP (fun o => o.isSome)

/-- The batch ordinals at which the beacon hook fires: the hook runs at the
start of every batch entered with `txn_ix = 0`, i.e. while no real
transaction has been processed yet. -/
def hookSchedule (t o : Nat) : List (List (Option TxnInfo)) → List Nat
  | [] => []
  | b :: rest => (if t = 0 then [o] else []) ++ hookSchedule (t + countSome b) (o + 1) rest

/-! ### Lemmas about `chunksOf`, `padUsing2` and `batch` -/

theorem chunksOfGo_flatten {α : Type} (h : Nat) (hh : 1 ≤ h) :
    ∀ (fuel : Nat) (l : List α), l.length ≤ fuel → (chunksOfGo h fuel l).flatten = l := by
  intro fuel
  induction fuel with
  | zero =>
    intro l hl
    have hnil : l = [] := List.length_eq_zero.mp (Nat.le_zero.mp hl)
    subst hnil; rfl
  | succ n ih =>
    intro l hl
    cases l with
    | nil => rfl
    | cons x xs =>
      have hdrop : ((x :: xs).drop h).length ≤ n := by
        rw [List.length_drop]
        simp only [List.length_cons] at hl ⊢
        omega
      calc (chunksOfGo h (n + 1) (x :: xs)).flatten
          = (x :: xs).take h ++ (chunksOfGo h n ((x :: xs).drop h)).flatten := by
            simp [chunksOfGo]
        _ = (x :: xs).take h ++ (x :: xs).drop h := by rw [ih _ hdrop]
        _ = x :: xs := List.take_append_drop _ _

theorem chunksOfGo_ne_nil {α : Type} (h : Nat) (hh : 1 ≤ h) :
    ∀ (fuel : Nat) (l : List α), ∀ c ∈ chunksOfGo h fuel l, c ≠ [] := by
  intro fuel
  induction fuel with
  | zero =>
    intro l c hc
    cases l with
    | nil => simp [chunksOfGo] at hc
    | cons x xs =>
      simp only [chunksOfGo, List.mem_singleton] at hc
      subst hc; simp
  | succ n ih =>
    intro l c hc
    cases l with
    | nil => simp [chunksOfGo] at hc
    | cons x xs =>
      simp only [chunksOfGo, List.mem_cons] at hc
      rcases hc with rfl | hc
      · obtain ⟨k, rfl⟩ : ∃ k, h = k + 1 := ⟨h - 1, by omega⟩
        simp
      · exact ih _ _ hc

theorem chunksOfGo_length_le {α : Type} (h : Nat) (hh : 1 ≤ h) :
    ∀ (fuel : Nat) (l : List α), (chunksOfGo h fuel l).length ≤ l.length := by
  intro fuel
  induction fuel with
  | zero => intro l; cases l <;> simp [chunksOfGo]
  | succ n ih =>
    intro l
    cases l with
    | nil => simp [chunksOfGo]
    | cons x xs =>
      have hrec := ih ((x :: xs).drop h)
      have hlen : ((x :: xs).drop h).length = (x :: xs).length - h :=
        List.length_drop _ _
      have hgoal : (chunksOfGo h (n + 1) (x :: xs)).length
          = (chunksOfGo h n ((x :: xs).drop h)).length + 1 := by
        simp [chunksOfGo]
      rw [hgoal]
      rw [hlen] at hrec
      simp only [List.length_cons] at hrec ⊢
      omega

theorem chunksOf_flatten {α : Type} (h : Nat) (hh : 1 ≤ h) (xs : List α) :
    (chunksOf h xs).flatten = xs :=
  chunksOfGo_flatten h hh xs.length xs le_rfl

theorem chunksOf_ne_nil {α : Type} (h : Nat) (hh : 1 ≤ h) (xs : List α) :
    ∀ c ∈ chunksOf h xs, c ≠ [] :=
  chunksOfGo_ne_nil h hh xs.length xs

theorem chunksOf_length_le {α : Type} (h : Nat) (hh : 1 ≤ h) (xs : List α) :
    (chunksOf h xs).length ≤ xs.length :=
  chunksOfGo_length_le h hh xs.length xs

theorem flatten_map_singleton {α : Type} (xs : List α) :
    (xs.map (fun x => [x])).flatten = xs := by
  induction xs with
  | nil => rfl
  | cons x xs ih => simp [ih]

theorem padUsing2_flatten (xs : List (Option TxnInfo)) :
    ((padUsing2 xs).map (fun it => [it])).flatten = xs ++ List.replicate (2 - xs.length) none :=
  flatten_map_singleton _

theorem filterMap_id_replicate_none {α : Type} (k : Nat) :
    (List.replicate k (none : Option α)).filterMap id = [] := by
  induction k with
  | zero => rfl
  | succ n ih => simp [List.replicate_succ, ih]

/-- Case analysis on the three arms of `batch`. -/
theorem batch_cases (txns : List TxnInfo) (hint : Nat) :
    (2 ≤ (chunksOf (max hint 1) (txns.map some)).length ∧
       batch txns hint = chunksOf (max hint 1) (txns.map some)) ∨
    (¬ 2 ≤ (chunksOf (max hint 1) (txns.map some)).length ∧ 2 ≤ txns.length ∧
       batch txns hint =
         [(txns.map some).take (txns.length / 2),
          (txns.map some).drop (txns.length / 2)]) ∨
    (¬ 2 ≤ (chunksOf (max hint 1) (txns.map some)).length ∧ txns.length ≤ 1 ∧
       batch txns hint = (padUsing2 (txns.map some)).map (fun it => [it])) := by
  simp only [batch]
  split_ifs with h1 h2
  · exact Or.inl ⟨h1, rfl⟩
  · refine Or.inr (Or.inl ⟨h1, by simpa using h2, ?_⟩)
    simp [List.length_map]
  · refine Or.inr (Or.inr ⟨h1, ?_, rfl⟩)
    simp only [List.length_map] at h2
    omega

theorem sum_map_length_singleton {α : Type} (l : List α) :
    ((l.map (fun x => [x])).map List.length).sum = l.length := by
  rw [List.map_map]
  induction l with
  | nil => rfl
  | cons x xs ih => simp [Function.comp, ih]; omega

/-- **C4.**  For every transaction list and hint (the hint clamped to at
least 1), `batch` returns at least two batches whose total slot count is at
least the number of transactions; it chunks left-to-right when that yields
at least two batches, otherwise splits into two halves at `n / 2` (first
half smaller for odd `n`) when `n ≥ 2`, otherwise pads with `none` dummies
to exactly two singleton batches; and the pinned concrete batch-size
sequences for `(n, hint) = (0,0), (1,0), (2,0), (3,0), (3,2), (3,3)` are
`[1,1], [1,1], [1,1], [1,1,1], [2,1], [1,2]`. -/
theorem batch_law (txns : List TxnInfo) (hint : Nat) :
    2 ≤ (batch txns hint).length ∧
    txns.length ≤ ((batch txns hint).map List.length).sum ∧
    (2 ≤ (chunksOf (max hint 1) (txns.map some)).length →
        batch txns hint = chunksOf (max hint 1) (txns.map some)) ∧
    ((chunksOf (max hint 1) (txns.map some)).length < 2 → 2 ≤ txns.length →
        batch txns hint =
          [(txns.map some).take (txns.length / 2),
           (txns.map some).drop (txns.length / 2)]) ∧
    (txns.length ≤ 1 →
        batch txns hint = (padUsing2 (txns.map some)).map (fun it => [it])) ∧
    (batch ([] : List TxnInfo) 0).map List.length = [1, 1] ∧
    (batch (List.replicate 1 TxnInfo.defaultInfo) 0).map List.length = [1, 1] ∧
    (batch (List.replicate 2 TxnInfo.defaultInfo) 0).map List.length = [1, 1] ∧
    (batch (List.replicate 3 TxnInfo.defaultInfo) 0).map List.length = [1, 1, 1] ∧
    (batch (List.replicate 3 TxnInfo.defaultInfo) 2).map List.length = [2, 1] ∧
    (batch (List.replicate 3 TxnInfo.defaultInfo) 3).map List.length = [1, 2] := by
  have hh : 1 ≤ max hint 1 := le_max_right _ _
  have hle := chunksOf_length_le (max hint 1) hh (txns.map some)
  rw [List.length_map] at hle
  rcases batch_cases txns hint with ⟨h1, hB⟩ | ⟨h1, h2, hB⟩ | ⟨h1, h2, hB⟩
  · have hsum : ((chunksOf (max hint 1) (txns.map some)).map List.length).sum
        = txns.length := by
      rw [← List.length_flatten, chunksOf_flatten _ hh, List.length_map]
    refine ⟨hB ▸ h1, by rw [hB, hsum], fun _ => hB, fun hc _ => absurd h1 (by omega),
            fun hn => absurd (le_trans h1 hle) (by omega),
            by decide, by decide, by decide, by decide, by decide, by decide⟩
  · refine ⟨by rw [hB]; simp, ?_, fun hc => absurd hc h1, fun _ _ => hB,
            fun hn => by omega,
            by decide, by decide, by decide, by decide, by decide, by decide⟩
    rw [hB]
    simp only [List.map_cons, List.map_nil, List.sum_cons, List.sum_nil,
      List.length_take, List.length_drop, List.length_map]
    omega
  · refine ⟨?_, ?_, fun hc => absurd hc h1, fun _ hn => by omega, fun _ => hB,
            by decide, by decide, by decide, by decide, by decide, by decide⟩
    · rw [hB]
      simp only [List.length_map, padUsing2, List.length_append, List.length_replicate]
      omega
    · rw [hB, sum_map_length_singleton]
      simp only [padUsing2, List.length_append, List.length_map, List.length_replicate]
      omega

/-- **C9.**  Every batch returned by `batch` is non-empty, the total number
of slots across all batches equals `max n 2`, the real transactions appear
exactly once in input order, and dummy (`none`) slots occur only when
`n ≤ 1`. -/
theorem batch_slots (txns : List TxnInfo) (hint : Nat) :
    (∀ b ∈ batch txns hint, b ≠ []) ∧
    (batch txns hint).flatten.length = max txns.length 2 ∧
    (batch txns hint).flatten.filterMap id = txns ∧
    (2 ≤ txns.length → ∀ o ∈ (batch txns hint).flatten, o.isSome) := by
  have hh : 1 ≤ max hint 1 := le_max_right _ _
  have hle := chunksOf_length_le (max hint 1) hh (txns.map some)
  rw [List.length_map] at hle
  rcases batch_cases txns hint with ⟨h1, hB⟩ | ⟨h1, h2, hB⟩ | ⟨h1, h2, hB⟩
  · have hflat : (batch txns hint).flatten = txns.map some := by
      rw [hB, chunksOf_flatten _ hh]
    refine ⟨?_, ?_, ?_, ?_⟩
    · rw [hB]; exact chunksOf_ne_nil _ hh _
    · rw [hflat, List.length_map]
      have : 2 ≤ txns.length := le_trans h1 hle
      omega
    · rw [hflat]; simp
    · intro _ o ho
      rw [hflat] at ho
      simp only [List.mem_map] at ho
      obtain ⟨a, _, rfl⟩ := ho
      rfl
  · have hflat : (batch txns hint).flatten = txns.map some := by
      rw [hB]
      simp only [List.flatten_cons, List.flatten_nil, List.append_nil]
      have := List.take_append_drop ((txns.map some).length / 2) (txns.map some)
      rw [List.length_map] at this
      exact this
    refine ⟨?_, ?_, ?_, ?_⟩
    · intro b hb
      rw [hB] at hb
      simp only [List.mem_cons, List.mem_singleton, List.not_mem_nil, or_false] at hb
      rcases hb with rfl | rfl
      · intro hnil
        have := congrArg List.length hnil
        rw [List.length_take] at this
        simp only [List.length_map, List.length_nil] at this
        omega
      · intro hnil
        have := congrArg List.length hnil
        rw [List.length_drop] at this
        simp only [List.length_map, List.length_nil] at this
        omega
    · rw [hflat, List.length_map]; omega
    · rw [hflat]; simp
    · intro _ o ho
      rw [hflat] at ho
      simp only [List.mem_map] at ho
      obtain ⟨a, _, rfl⟩ := ho
      rfl
  · have hflat : (batch txns hint).flatten
        = txns.map some ++ List.replicate (2 - (txns.map some).length) none := by
      rw [hB, padUsing2_flatten]
    refine ⟨?_, ?_, ?_, ?_⟩
    · intro b hb
      rw [hB] at hb
      simp only [List.mem_map] at hb
      obtain ⟨o, _, rfl⟩ := hb
      simp
    · rw [hflat]
      simp only [List.length_append, List.length_map, List.length_replicate]
      omega
    · rw [hflat]
      rw [List.filterMap_append]
      rw [filterMap_id_replicate_none]
      simp
    · intro hn; omega

theorem batch_law_witness :
    batch ([] : List TxnInfo) 0 = (padUsing2 (([] : List TxnInfo).map some)).map (fun it => [it]) :=
  (batch_law [] 0).2.2.2.2.1 (by decide)

theorem batch_slots_witness :
    (2 ≤ (List.replicate 2 TxnInfo.defaultInfo).length →
      ∀ o ∈ (batch (List.replicate 2 TxnInfo.defaultInfo) 1).flatten, o.isSome) :=
  (batch_slots (List.replicate 2 TxnInfo.defaultInfo) 1).2.2.2

/-! ### Association-list lemmas -/

theorem alookup_ainsert {κ ν : Type} [DecidableEq κ] (l : List (κ × ν)) (k : κ) (v : ν)
    (k' : κ) : alookup (ainsert l k v) k' = if k = k' then some v else alookup l k' := by
  induction l with
  | nil => simp [ainsert, alookup]
  | cons p rest ih =>
    obtain ⟨pk, pv⟩ := p
    by_cases hpk : pk = k
    · subst hpk
      rw [show ainsert ((pk, pv) :: rest) pk v = (pk, v) :: rest from by
        simp [ainsert]]
      by_cases hk : pk = k'
      · subst hk
        simp [alookup]
      · simp [alookup, hk]
    · rw [show ainsert ((pk, pv) :: rest) k v = (pk, pv) :: ainsert rest k v from by
        simp [ainsert, hpk]]
      by_cases hpk' : pk = k'
      · subst hpk'
        have hk : ¬ (k = pk) := fun h => hpk h.symm
        simp [alookup, hk]
      · simp [alookup, hpk', ih]

/-- The synthetic storage trie of phase A has exactly the attached hash as
its root. -/
theorem root_insertHash_empty (r : H256) :
    (StorageTrie.insertHash StorageTrie.defaultTrie TrieKey.empty r).root = r := rfl

/-! ### Phase A: storage root reconciliation (C8) -/

/-- Phase A never overwrites an existing storage-map binding. -/
theorem initStorageTries_preserves (accts : List (H256 × AccountRlp)) :
    ∀ (st st' : List (H256 × StorageTrie)), initStorageTries accts st = .ok st' →
      ∀ key v, alookup st key = some v → alookup st' key = some v := by
  induction accts with
  | nil =>
    intro st st' hok key v hv
    simp only [initStorageTries] at hok
    cases hok; exact hv
  | cons p rest ih =>
    intro st st' hok key v hv
    obtain ⟨haddr, acct⟩ := p
    simp only [initStorageTries] at hok
    cases hlook : alookup st haddr with
    | some s =>
      rw [hlook] at hok
      simp only at hok
      split_ifs at hok with hroot
      exact ih _ _ hok _ _ hv
    | none =>
      rw [hlook] at hok
      simp only at hok
      split_ifs at hok with hroot
      refine ih _ _ hok _ _ ?_
      rw [alookup_ainsert]
      have hne : haddr ≠ key := by
        intro h; subst h; rw [hlook] at hv; exact Option.noConfusion hv
      rw [if_neg hne]
      exact hv

/-- Phase A fails exactly on a supplied storage trie whose root disagrees. -/
theorem initStorageTries_error_iff (accts : List (H256 × AccountRlp)) :
    ∀ (st : List (H256 × StorageTrie)), (accts.map Prod.fst).Nodup →
      ((∃ e, initStorageTries accts st = .error e) ↔
        ∃ p ∈ accts, ∃ s, alookup st p.1 = some s ∧ s.root ≠ p.2.storage_root) := by
  induction accts with
  | nil =>
    intro st _
    simp [initStorageTries]
  | cons p rest ih =>
    intro st hnodup
    obtain ⟨haddr, acct⟩ := p
    simp only [List.map_cons, List.nodup_cons] at hnodup
    obtain ⟨hnotin, hnodup'⟩ := hnodup
    simp only [initStorageTries]
    cases hlook : alookup st haddr with
    | some s =>
      simp only
      split_ifs with hroot
      · rw [ih st hnodup']
        constructor
        · rintro ⟨q, hq, s', hs', hne⟩
          exact ⟨q, List.mem_cons_of_mem _ hq, s', hs', hne⟩
        · rintro ⟨q, hq, s', hs', hne⟩
          rcases List.mem_cons.mp hq with rfl | hq'
          · rw [hlook] at hs'
            cases hs'
            exact absurd hroot hne
          · exact ⟨q, hq', s', hs', hne⟩
      · constructor
        · intro _
          exact ⟨(haddr, acct), List.mem_cons_self _ _, s, hlook, hroot⟩
        · intro _
          exact ⟨_, rfl⟩
    | none =>
      simp only
      rw [if_pos (root_insertHash_empty acct.storage_root)]
      rw [ih _ hnodup']
      constructor
      · rintro ⟨q, hq, s', hs', hne⟩
        rw [alookup_ainsert] at hs'
        have hneq : haddr ≠ q.1 := by
          intro h
          exact hnotin (h ▸ List.mem_map_of_mem Prod.fst hq)
        rw [if_neg hneq] at hs'
        exact ⟨q, List.mem_cons_of_mem _ hq, s', hs', hne⟩
      · rintro ⟨q, hq, s', hs', hne⟩
        rcases List.mem_cons.mp hq with rfl | hq'
        · rw [hlook] at hs'
          exact Option.noConfusion hs'
        · refine ⟨q, hq', s', ?_, hne⟩
          rw [alookup_ainsert]
          have hneq : haddr ≠ q.1 := by
            intro h
            exact hnotin (h ▸ List.mem_map_of_mem Prod.fst hq')
          rw [if_neg hneq]
          exact hs'

/-- The error of phase A identifies a hashed address whose supplied storage
trie disagrees with the account's storage root. -/
theorem initStorageTries_error_shape (accts : List (H256 × AccountRlp)) :
    ∀ (st : List (H256 × StorageTrie)), (accts.map Prod.fst).Nodup →
      ∀ e, initStorageTries accts st = .error e →
        ∃ h a s, e = .inconsistentInitialStorage h ∧ (h, a) ∈ accts ∧
          alookup st h = some s ∧ s.root ≠ a.storage_root := by
  induction accts with
  | nil =>
    intro st _ e he
    simp [initStorageTries] at he
  | cons p rest ih =>
    intro st hnodup e he
    obtain ⟨haddr, acct⟩ := p
    simp only [List.map_cons, List.nodup_cons] at hnodup
    obtain ⟨hnotin, hnodup'⟩ := hnodup
    simp only [initStorageTries] at he
    cases hlook : alookup st haddr with
    | some s =>
      rw [hlook] at he
      simp only at he
      split_ifs at he with hroot
      · obtain ⟨h', a', s', rfl, hmem, hs', hne⟩ := ih st hnodup' e he
        exact ⟨h', a', s', rfl, List.mem_cons_of_mem _ hmem, hs', hne⟩
      · cases he
        exact ⟨haddr, acct, s, rfl, List.mem_cons_self _ _, hlook, hroot⟩
    | none =>
      rw [hlook] at he
      simp only at he
      rw [if_pos (root_insertHash_empty acct.storage_root)] at he
      obtain ⟨h', a', s', rfl, hmem, hs', hne⟩ := ih _ hnodup' e he
      have hneq : haddr ≠ h' := by
        intro h
        exact hnotin (h ▸ List.mem_map_of_mem Prod.fst hmem)
      rw [alookup_ainsert, if_neg hneq] at hs'
      exact ⟨h', a', s', rfl, List.mem_cons_of_mem _ hmem, hs', hne⟩

/-- On success, every account without a supplied storage trie ends up bound
to the synthetic single-hash trie. -/
theorem initStorageTries_ok_synth (accts : List (H256 × AccountRlp)) :
    ∀ (st st' : List (H256 × StorageTrie)), (accts.map Prod.fst).Nodup →
      initStorageTries accts st = .ok st' →
      ∀ p ∈ accts, alookup st p.1 = none →
        alookup st' p.1 = some
          (StorageTrie.insertHash StorageTrie.defaultTrie TrieKey.empty p.2.storage_root) := by
  induction accts with
  | nil =>
    intro st st' _ hok p hp
    simp at hp
  | cons q rest ih =>
    intro st st' hnodup hok p hp hnone
    obtain ⟨haddr, acct⟩ := q
    simp only [List.map_cons, List.nodup_cons] at hnodup
    obtain ⟨hnotin, hnodup'⟩ := hnodup
    simp only [initStorageTries] at hok
    rcases List.mem_cons.mp hp with rfl | hp'
    · rw [hnone] at hok
      simp only at hok
      rw [if_pos (root_insertHash_empty acct.storage_root)] at hok
      refine initStorageTries_preserves rest _ _ hok _ _ ?_
      rw [alookup_ainsert, if_pos rfl]
    · cases hlook : alookup st haddr with
      | some s =>
        rw [hlook] at hok
        simp only at hok
        split_ifs at hok with hroot
        exact ih _ _ hnodup' hok _ hp' hnone
      | none =>
        rw [hlook] at hok
        simp only at hok
        rw [if_pos (root_insertHash_empty acct.storage_root)] at hok
        refine ih _ _ hnodup' hok _ hp' ?_
        rw [alookup_ainsert]
        have hneq : haddr ≠ p.1 := by
          intro h
          exact hnotin (h ▸ List.mem_map_of_mem Prod.fst hp')
        rw [if_neg hneq]
        exact hnone

/-- **C8.**  Phase A of `middle` fails, with an inconsistent-initial-storage
error identifying the hashed address, exactly when some account's supplied
storage trie has a root differing from the account's `storage_root`; every
account without a supplied trie gets the synthetic single-`insert_hash`
trie bound in the storage map, and synthetic tries never trigger the
error. -/
theorem initial_storage_reconciliation (accts : List (H256 × AccountRlp))
    (st : List (H256 × StorageTrie)) (hnodup : (accts.map Prod.fst).Nodup) :
    ((∃ e, initStorageTries accts st = .error e) ↔
      ∃ p ∈ accts, ∃ s, alookup st p.1 = some s ∧ s.root ≠ p.2.storage_root) ∧
    (∀ e, initStorageTries accts st = .error e →
      ∃ h a s, e = .inconsistentInitialStorage h ∧ (h, a) ∈ accts ∧
        alookup st h = some s ∧ s.root ≠ a.storage_root) ∧
    (∀ st', initStorageTries accts st = .ok st' →
      ∀ p ∈ accts, alookup st p.1 = none →
        alookup st' p.1 = some
          (StorageTrie.insertHash StorageTrie.defaultTrie TrieKey.empty p.2.storage_root)) :=
  ⟨initStorageTries_error_iff accts st hnodup,
   initStorageTries_error_shape accts st hnodup,
   fun st' hok => initStorageTries_ok_synth accts st st' hnodup hok⟩

theorem initial_storage_reconciliation_witness :
    ∃ e, initStorageTries
      [(H256.raw 7, { AccountRlp.defaultAcct with storage_root := H256.raw 1 })]
      [(H256.raw 7, StorageTrie.defaultTrie)] = .error e :=
  (initial_storage_reconciliation _ _ (by decide)).1.mpr
    ⟨(H256.raw 7, { AccountRlp.defaultAcct with storage_root := H256.raw 1 }),
     List.mem_singleton.mpr rfl, StorageTrie.defaultTrie, by decide, by decide⟩

/-! ### Read-only accesses and the precompile range (C1) -/

theorem mem_setInsert {α : Type} [DecidableEq α] (x y : α) (s : List α) :
    x ∈ setInsert s y ↔ x = y ∨ x ∈ s := by
  unfold setInsert
  split_ifs with h
  · constructor
    · exact fun hx => Or.inr hx
    · rintro (rfl | hx)
      · exact h
      · exact hx
  · rw [List.mem_append, List.mem_singleton]
    tauto

/-- The read-only arm of the trace step: a default (access-only) trace
leaves the tries untouched and updates only the masks. -/
theorem applyTrace_default_eq (rct : ReceiptBytes) (addr : Nat) (tc : TraceCtx)
    (mapped : ReceiptBytes) (status : Bool)
    (hm : map_receipt_bytes rct = .ok mapped) (hd : decode_receipt mapped = .ok status) :
    applyTrace rct addr TxnTrace.defaultTrace tc = .ok
      { tc with
        storage_masks := ainsert tc.storage_masks addr
          ((alookup tc.storage_masks addr).getD []),
        state_mask :=
          if status || !(inPrecompileRange addr) then
            setInsert tc.state_mask (TrieKey.fromAddress addr)
          else tc.state_mask } := by
  unfold applyTrace
  simp [hm, hd, TxnTrace.defaultTrace, setExtend, sdFinish]

/-- **C1 (amended).**  In `middle`, a read-only access (default trace) always
succeeds given decodable receipt bytes, changes no trie, and the address
is present in the resulting state mask exactly when the receipt status is
true, or the address lies outside the half-open precompile range
`0x01 ≤ addr < 0x0a` (so `0x0a` itself is outside the range), or it was
already in the mask.  In particular a *successful* read-only access to a
precompile is masked and a *failed* one is elided. -/
theorem read_only_state_mask (rct : ReceiptBytes) (addr : Nat) (tc : TraceCtx)
    (mapped : ReceiptBytes) (status : Bool)
    (hm : map_receipt_bytes rct = .ok mapped) (hd : decode_receipt mapped = .ok status) :
    ∃ tc', applyTrace rct addr TxnTrace.defaultTrace tc = .ok tc' ∧
      tc'.state_trie = tc.state_trie ∧
      tc'.storage_tries = tc.storage_tries ∧
      (TrieKey.fromAddress addr ∈ tc'.state_mask ↔
        (status = true ∨ ¬(1 ≤ addr ∧ addr < 0xa) ∨
          TrieKey.fromAddress addr ∈ tc.state_mask)) := by
  refine ⟨_, applyTrace_default_eq rct addr tc mapped status hm hd, rfl, rfl, ?_⟩
  simp only
  by_cases hc : (status || !(inPrecompileRange addr)) = true
  · rw [if_pos hc, mem_setInsert]
    simp only [Bool.or_eq_true, Bool.not_eq_true'] at hc
    constructor
    · intro _
      rcases hc with hs | hp
      · exact Or.inl hs
      · refine Or.inr (Or.inl ?_)
        unfold inPrecompileRange at hp
        intro ⟨h1, h2⟩
        simp [h1, h2] at hp
    · intro _
      exact Or.inl rfl
  · rw [if_neg hc]
    simp only [Bool.or_eq_true, Bool.not_eq_true'] at hc
    push_neg at hc
    obtain ⟨hs, hp⟩ := hc
    have hrange : 1 ≤ addr ∧ addr < 0xa := by
      unfold inPrecompileRange at hp
      by_contra hcon
      push_neg at hcon
      rcases Nat.lt_or_ge addr 1 with hlt | hge
      · simp [Nat.not_le.mpr hlt] at hp
      · have := hcon hge
        simp [hge, Nat.not_lt.mpr this] at hp
    constructor
    · intro hmem
      exact Or.inr (Or.inr hmem)
    · rintro (hst | hout | hmem)
      · exact absurd hst (by simpa using hs)
      · exact absurd hrange hout
      · exact hmem

/-- **C1 (counterexample).**  A *successful* (status-true) read-only access
to precompile address `0x05` does add the address to the state mask, and a
*failed* read-only access to `0x0a` also adds it — both contrary to the
claim's precompile elision statement for the range `0x01..0x0a`
inclusive. -/
theorem precompile_mask_counterexample :
    ((applyTrace (ReceiptBytes.legacy true []) 5 TxnTrace.defaultTrace
        { state_trie := { inner := [] }, storage_tries := [], code := Hash2Code.new,
          batch_contract_code := [[]], storage_masks := [], state_mask := [] }).toOption.map
      (fun tc => decide (TrieKey.fromAddress 5 ∈ tc.state_mask)) = some true) ∧
    ((applyTrace (ReceiptBytes.legacy false []) 10 TxnTrace.defaultTrace
        { state_trie := { inner := [] }, storage_tries := [], code := Hash2Code.new,
          batch_contract_code := [[]], storage_masks := [], state_mask := [] }).toOption.map
      (fun tc => decide (TrieKey.fromAddress 10 ∈ tc.state_mask)) = some true) ∧
    (1 ≤ 5 ∧ 5 ≤ 0xa) ∧ (1 ≤ 10 ∧ 10 ≤ 0xa) := by
  exact ⟨by decide, by decide, by decide, by decide⟩

theorem read_only_state_mask_witness :
    ∃ tc', applyTrace (ReceiptBytes.legacy true []) 3 TxnTrace.defaultTrace
        { state_trie := { inner := [] }, storage_tries := [], code := Hash2Code.new,
          batch_contract_code := [[]], storage_masks := [], state_mask := [] } = .ok tc' ∧
      tc'.state_trie = { inner := [] } ∧
      tc'.storage_tries = [] ∧
      (TrieKey.fromAddress 3 ∈ tc'.state_mask ↔
        (true = true ∨ ¬(1 ≤ 3 ∧ 3 < 0xa) ∨ TrieKey.fromAddress 3 ∈ ([] : List TrieKey))) :=
  read_only_state_mask (ReceiptBytes.legacy true []) 3 _ _ true rfl rfl

/-! ### Frame effect of empty-byte-code slots (C10) -/

/-- **C10.**  A batch slot whose byte code is empty (in particular every
dummy slot) inserts nothing into the transaction or receipt trie and
appends nothing to the batch byte code, while its gas is still added, its
traces are still applied (error for error, trace context for trace
context), and the transaction index advances exactly when the slot is
non-dummy. -/
theorem empty_bytecode_frame (slot : Option TxnInfo) (s : St)
    (hempty : (slot.getD TxnInfo.defaultInfo).meta.byte_code = []) :
    (∀ e, applyTxn slot s = .error e ↔
      exceptFoldl (fun tc p =>
          applyTrace (slot.getD TxnInfo.defaultInfo).meta.new_receipt_trie_node_byte
            p.1 p.2 tc)
        (slot.getD TxnInfo.defaultInfo).traces s.trace = .error e) ∧
    (∀ s', applyTxn slot s = .ok s' →
      s'.transaction_trie = s.transaction_trie ∧
      s'.receipt_trie = s.receipt_trie ∧
      s'.batch_byte_code = s.batch_byte_code ∧
      s'.batch_gas_used = s.batch_gas_used + (slot.getD TxnInfo.defaultInfo).meta.gas_used ∧
      s'.txn_ix = s.txn_ix + (if slot.isSome then 1 else 0) ∧
      s'.loop_ix = s.loop_ix + 1 ∧
      exceptFoldl (fun tc p =>
          applyTrace (slot.getD TxnInfo.defaultInfo).meta.new_receipt_trie_node_byte
            p.1 p.2 tc)
        (slot.getD TxnInfo.defaultInfo).traces s.trace = .ok s'.trace) := by
  simp only [applyTxn, hempty, if_pos]
  cases hfold : exceptFoldl (fun tc p =>
      applyTrace (slot.getD TxnInfo.defaultInfo).meta.new_receipt_trie_node_byte
        p.1 p.2 tc)
      (slot.getD TxnInfo.defaultInfo).traces s.trace with
  | error e =>
    refine ⟨fun e' => ?_, fun s' hs' => ?_⟩
    · constructor
      · intro h
        cases h
        rfl
      · intro h
        cases h
        rfl
    · exact absurd hs' (by intro h; cases h)
  | ok tc =>
    refine ⟨fun e' => ?_, fun s' hs' => ?_⟩
    · constructor
      · intro h
        cases h
      · intro h
        cases h
    · cases hs'
      exact ⟨rfl, rfl, rfl, rfl, rfl, rfl, rfl⟩

theorem empty_bytecode_frame_witness :
    ([] : List (Nat × List Nat)) = [] ∧
    ([] : List (Nat × ReceiptBytes)) = [] ∧
    ([] : List (List Nat)) = [] ∧
    (0 : Nat) = 0 + (Option.getD none TxnInfo.defaultInfo).meta.gas_used ∧
    (0 : Nat) = 0 + (if (none : Option TxnInfo).isSome then 1 else 0) ∧
    (1 : Nat) = 0 + 1 ∧
    exceptFoldl (fun tc p =>
        applyTrace (Option.getD none TxnInfo.defaultInfo).meta.new_receipt_trie_node_byte
          p.1 p.2 tc)
      (Option.getD none TxnInfo.defaultInfo).traces
      ⟨⟨[]⟩, [], Hash2Code.new, [[]], [], []⟩
      = .ok ⟨⟨[]⟩, [], Hash2Code.new, [[]], [], []⟩ :=
  (empty_bytecode_frame none
      ⟨⟨⟨[]⟩, [], Hash2Code.new, [[]], [], []⟩, [], [], 0, 0, 0, []⟩ (by decide)).2
    ⟨⟨⟨[]⟩, [], Hash2Code.new, [[]], [], []⟩, [], [], 0, 1, 0, []⟩ rfl

/-! ### The beacon-roots hook (C3) -/

theorem alookup_aerase_self {κ ν : Type} [DecidableEq κ] (l : List (κ × ν)) (k : κ)
    (hnodup : (l.map Prod.fst).Nodup) : alookup (aerase l k) k = none := by
  induction l with
  | nil => rfl
  | cons p rest ih =>
    obtain ⟨pk, pv⟩ := p
    simp only [List.map_cons, List.nodup_cons] at hnodup
    obtain ⟨hnotin, hnodup'⟩ := hnodup
    by_cases hpk : pk = k
    · subst hpk
      rw [show aerase ((pk, pv) :: rest) pk = rest from by simp [aerase]]
      cases hl : alookup rest pk with
      | none => rfl
      | some v =>
        exfalso
        apply hnotin
        clear ih hnotin
        induction rest with
        | nil => simp [alookup] at hl
        | cons q tail ihq =>
          obtain ⟨qk, qv⟩ := q
          simp only [alookup] at hl
          by_cases hq : qk = pk
          · subst hq; simp
          · rw [if_neg hq] at hl
            simp only [List.map_cons, List.mem_cons]
            simp only [List.map_cons, List.nodup_cons] at hnodup'
            exact Or.inr (ihq hnodup'.2 hl)
    · rw [show aerase ((pk, pv) :: rest) k = (pk, pv) :: aerase rest k from by
        simp [aerase, hpk]]
      simp only [alookup, if_neg hpk]
      exact ih hnodup'

/-- **C3.**  `do_beacon_hook` computes `history_timestamp = ts mod 8191` and
`history_timestamp_next = history_timestamp + 8191`, processes exactly the
pairs `[(history_timestamp, ts), (history_timestamp_next, pbbr)]` with the
slot key `keccak(big_endian_32(slot_index))`, removing (and admitting the
removal report into the beacon storage mask) on zero values and inserting
`rlp(value)` (and the slot into the mask) on non-zero values; it then sets
the beacon account's storage root to the beacon trie's root, reinserts the
account, and adds the beacon address to the state mask; it fails exactly
when the beacon storage trie or the beacon account is absent. -/
theorem do_beacon_hook_spec (ts pbbr : Nat) (tc : TraceCtx) :
    HISTORY_BUFFER_LENGTH = 8191 ∧
    (alookup tc.storage_tries (keccakAddr BEACON_ROOTS_CONTRACT_ADDRESS) = none →
      do_beacon_hook ts pbbr tc = .error .missingBeaconStorage) ∧
    (∀ bst, alookup tc.storage_tries (keccakAddr BEACON_ROOTS_CONTRACT_ADDRESS) = some bst →
      tc.state_trie.getByAddress BEACON_ROOTS_CONTRACT_ADDRESS = none →
      do_beacon_hook ts pbbr tc = .error .missingBeaconAccount) ∧
    (∀ bst acct, alookup tc.storage_tries (keccakAddr BEACON_ROOTS_CONTRACT_ADDRESS) = some bst →
      tc.state_trie.getByAddress BEACON_ROOTS_CONTRACT_ADDRESS = some acct →
      do_beacon_hook ts pbbr tc = .ok
        { tc with
          storage_tries := ainsert tc.storage_tries
            (keccakAddr BEACON_ROOTS_CONTRACT_ADDRESS)
            ([(ts % 8191, ts), (ts % 8191 + 8191, pbbr)].foldl beaconSlotStep
              (bst, (alookup tc.storage_masks BEACON_ROOTS_CONTRACT_ADDRESS).getD [])).1,
          storage_masks := ainsert tc.storage_masks BEACON_ROOTS_CONTRACT_ADDRESS
            ([(ts % 8191, ts), (ts % 8191 + 8191, pbbr)].foldl beaconSlotStep
              (bst, (alookup tc.storage_masks BEACON_ROOTS_CONTRACT_ADDRESS).getD [])).2,
          state_mask := setInsert tc.state_mask
            (TrieKey.fromAddress BEACON_ROOTS_CONTRACT_ADDRESS),
          state_trie := tc.state_trie.insertByAddress BEACON_ROOTS_CONTRACT_ADDRESS
            { acct with storage_root :=
                ([(ts % 8191, ts), (ts % 8191 + 8191, pbbr)].foldl beaconSlotStep
                  (bst, (alookup tc.storage_masks
                    BEACON_ROOTS_CONTRACT_ADDRESS).getD [])).1.root } }) ∧
    (∀ st ix u, u ≠ 0 →
      alookup (beaconSlotStep st (ix, u)).1.entries
          (TrieKey.fromHash (H256.keccakBytes (beBytes 32 ix))) = some (rlpNat u) ∧
      TrieKey.fromHash (H256.keccakBytes (beBytes 32 ix)) ∈ (beaconSlotStep st (ix, u)).2) ∧
    (∀ (st : StorageTrie × List TrieKey) ix, (st.1.entries.map Prod.fst).Nodup →
      alookup (beaconSlotStep st (ix, 0)).1.entries
          (TrieKey.fromHash (H256.keccakBytes (beBytes 32 ix))) = none ∧
      (beaconSlotStep st (ix, 0)).2 =
        setExtend (setInsert st.2 (TrieKey.fromHash (H256.keccakBytes (beBytes 32 ix))))
          (st.1.reportingRemove (TrieKey.fromHash (H256.keccakBytes (beBytes 32 ix)))).2) := by
  refine ⟨rfl, ?_, ?_, ?_, ?_, ?_⟩
  · intro hnone
    unfold do_beacon_hook
    rw [hnone]
  · intro bst hsome hacct
    unfold do_beacon_hook
    rw [hsome, hacct]
  · intro bst acct hsome hacct
    unfold do_beacon_hook
    rw [hsome, hacct]
    simp only [HISTORY_BUFFER_LENGTH]
  · intro st ix u hu
    unfold beaconSlotStep
    rw [if_neg hu]
    simp only [StorageTrie.insert]
    refine ⟨?_, ?_⟩
    · rw [alookup_ainsert, if_pos rfl]
    · rw [mem_setInsert]
      exact Or.inl rfl
  · intro st ix hnodup
    unfold beaconSlotStep
    rw [if_pos rfl]
    simp only [StorageTrie.reportingRemove]
    exact ⟨alookup_aerase_self _ _ hnodup, trivial⟩

theorem do_beacon_hook_spec_witness :
    do_beacon_hook 0 0
      ⟨⟨[(keccakAddr BEACON_ROOTS_CONTRACT_ADDRESS,
          { AccountRlp.defaultAcct with storage_root := StorageTrie.defaultTrie.root })]⟩,
        [(keccakAddr BEACON_ROOTS_CONTRACT_ADDRESS, StorageTrie.defaultTrie)],
        Hash2Code.new, [[]], [], []⟩ = .ok
      { storage_tries := ainsert
          [(keccakAddr BEACON_ROOTS_CONTRACT_ADDRESS, StorageTrie.defaultTrie)]
          (keccakAddr BEACON_ROOTS_CONTRACT_ADDRESS)
          ([((0 : Nat) % 8191, (0 : Nat)), ((0 : Nat) % 8191 + 8191, (0 : Nat))].foldl
            beaconSlotStep (StorageTrie.defaultTrie, (alookup ([] : List (Nat × List TrieKey))
              BEACON_ROOTS_CONTRACT_ADDRESS).getD [])).1,
        storage_masks := ainsert ([] : List (Nat × List TrieKey))
          BEACON_ROOTS_CONTRACT_ADDRESS
          ([((0 : Nat) % 8191, (0 : Nat)), ((0 : Nat) % 8191 + 8191, (0 : Nat))].foldl
            beaconSlotStep (StorageTrie.defaultTrie, (alookup ([] : List (Nat × List TrieKey))
              BEACON_ROOTS_CONTRACT_ADDRESS).getD [])).2,
        state_mask := setInsert [] (TrieKey.fromAddress BEACON_ROOTS_CONTRACT_ADDRESS),
        state_trie := StateMpt.insertByAddress
          ⟨[(keccakAddr BEACON_ROOTS_CONTRACT_ADDRESS,
             { AccountRlp.defaultAcct with storage_root := StorageTrie.defaultTrie.root })]⟩
          BEACON_ROOTS_CONTRACT_ADDRESS
          { AccountRlp.defaultAcct with storage_root :=
              ([((0 : Nat) % 8191, (0 : Nat)), ((0 : Nat) % 8191 + 8191, (0 : Nat))].foldl
                beaconSlotStep (StorageTrie.defaultTrie,
                  (alookup ([] : List (Nat × List TrieKey))
                    BEACON_ROOTS_CONTRACT_ADDRESS).getD [])).1.root },
        code := Hash2Code.new, batch_contract_code := [[]] } :=
  (do_beacon_hook_spec 0 0 _).2.2.2.1 StorageTrie.defaultTrie
    { AccountRlp.defaultAcct with storage_root := StorageTrie.defaultTrie.root }
    (by decide) (by decide)

/-! ### Write commitment of traces (C5) -/

/-- **C5.**  For a trace applied in `middle` (receipt bytes decodable to
`status`): writes are committed to the state trie exactly when the trace is
not access-only and, for an account absent before the transaction (born),
the receipt status is true — i.e. when `do_writes` holds.  When committed,
balance and nonce take the trace's values when present and stay unchanged
when absent; with written slots, the storage trie for `keccak(address)` is
fetched (created only when born, its absence otherwise being the
`MissingStorageTrie` error), each zero-valued slot is deleted via
`reporting_remove` with the report added to the address's storage mask,
each non-zero slot gets `rlp(value)` inserted, and the account's
`storage_root` becomes the storage trie's root before the account is
reinserted; without `do_writes` the state trie and storage tries are
untouched (up to the self-destruct epilogue). -/
theorem trace_write_semantics (rct : ReceiptBytes) (addr : Nat) (trc : TxnTrace)
    (tc : TraceCtx) (mapped : ReceiptBytes) (status : Bool)
    (hm : map_receipt_bytes rct = .ok mapped)
    (hd : decode_receipt mapped = .ok status) :
    (¬(¬(trc = TxnTrace.defaultTrace) ∧
        (if (tc.state_trie.getByAddress addr).isNone then status = true else True)) →
      applyTrace rct addr trc tc = .ok (sdFinish trc.self_destructed addr
        { tc with
          storage_masks := ainsert tc.storage_masks addr
            (setExtend ((alookup tc.storage_masks addr).getD [])
              ((trc.storage_written.map Prod.fst ++ trc.storage_read).map
                (fun k => TrieKey.fromHash (keccakSlot k)))),
          state_mask :=
            if status || !(inPrecompileRange addr) then
              setInsert tc.state_mask (TrieKey.fromAddress addr)
            else tc.state_mask })) ∧
    ((¬(trc = TxnTrace.defaultTrace) ∧
        (if (tc.state_trie.getByAddress addr).isNone then status = true else True)) →
      trc.storage_written = [] →
      ∀ ch code' bcc', resolveCodeUsage
          ((tc.state_trie.getByAddress addr).getD AccountRlp.defaultAcct).code_hash
          trc.code_usage tc.code tc.batch_contract_code = .ok (ch, code', bcc') →
      applyTrace rct addr trc tc = .ok (sdFinish trc.self_destructed addr
        { tc with
          state_trie := tc.state_trie.insertByAddress addr
            { nonce := trc.nonce.getD
                ((tc.state_trie.getByAddress addr).getD AccountRlp.defaultAcct).nonce,
              balance := trc.balance.getD
                ((tc.state_trie.getByAddress addr).getD AccountRlp.defaultAcct).balance,
              storage_root :=
                ((tc.state_trie.getByAddress addr).getD AccountRlp.defaultAcct).storage_root,
              code_hash := ch },
          code := code',
          batch_contract_code := bcc',
          storage_masks := ainsert tc.storage_masks addr
            (setExtend ((alookup tc.storage_masks addr).getD [])
              ((trc.storage_written.map Prod.fst ++ trc.storage_read).map
                (fun k => TrieKey.fromHash (keccakSlot k)))),
          state_mask := setInsert tc.state_mask (TrieKey.fromAddress addr) })) ∧
    ((¬(trc = TxnTrace.defaultTrace) ∧
        (if (tc.state_trie.getByAddress addr).isNone then status = true else True)) →
      trc.storage_written ≠ [] →
      ∀ ch code' bcc', resolveCodeUsage
          ((tc.state_trie.getByAddress addr).getD AccountRlp.defaultAcct).code_hash
          trc.code_usage tc.code tc.batch_contract_code = .ok (ch, code', bcc') →
      ∀ storage0,
      (if (tc.state_trie.getByAddress addr).isNone then
          storage0 = (alookup tc.storage_tries (keccakAddr addr)).getD StorageTrie.defaultTrie
        else alookup tc.storage_tries (keccakAddr addr) = some storage0) →
      applyTrace rct addr trc tc = .ok (sdFinish trc.self_destructed addr
        { tc with
          state_trie := tc.state_trie.insertByAddress addr
            { nonce := trc.nonce.getD
                ((tc.state_trie.getByAddress addr).getD AccountRlp.defaultAcct).nonce,
              balance := trc.balance.getD
                ((tc.state_trie.getByAddress addr).getD AccountRlp.defaultAcct).balance,
              storage_root := (trc.storage_written.foldl writeSlots
                (storage0, setExtend ((alookup tc.storage_masks addr).getD [])
                  ((trc.storage_written.map Prod.fst ++ trc.storage_read).map
                    (fun k => TrieKey.fromHash (keccakSlot k))))).1.root,
              code_hash := ch },
          storage_tries := ainsert tc.storage_tries (keccakAddr addr)
            (trc.storage_written.foldl writeSlots
              (storage0, setExtend ((alookup tc.storage_masks addr).getD [])
                ((trc.storage_written.map Prod.fst ++ trc.storage_read).map
                  (fun k => TrieKey.fromHash (keccakSlot k))))).1,
          code := code',
          batch_contract_code := bcc',
          storage_masks := ainsert tc.storage_masks addr
            (trc.storage_written.foldl writeSlots
              (storage0, setExtend ((alookup tc.storage_masks addr).getD [])
                ((trc.storage_written.map Prod.fst ++ trc.storage_read).map
                  (fun k => TrieKey.fromHash (keccakSlot k))))).2,
          state_mask := setInsert tc.state_mask (TrieKey.fromAddress addr) })) ∧
    ((¬(trc = TxnTrace.defaultTrace) ∧
        (if (tc.state_trie.getByAddress addr).isNone then status = true else True)) →
      trc.storage_written ≠ [] →
      (tc.state_trie.getByAddress addr).isNone = false →
      alookup tc.storage_tries (keccakAddr addr) = none →
      ∀ r, resolveCodeUsage
          ((tc.state_trie.getByAddress addr).getD AccountRlp.defaultAcct).code_hash
          trc.code_usage tc.code tc.batch_contract_code = .ok r →
      applyTrace rct addr trc tc = .error (.missingStorageTrie addr)) ∧
    (∀ e, applyTrace rct addr trc tc = .error e →
      (¬(trc = TxnTrace.defaultTrace) ∧
        (if (tc.state_trie.getByAddress addr).isNone then status = true else True)) ∧
      (resolveCodeUsage
          ((tc.state_trie.getByAddress addr).getD AccountRlp.defaultAcct).code_hash
          trc.code_usage tc.code tc.batch_contract_code = .error e ∨
        (trc.storage_written ≠ [] ∧ (tc.state_trie.getByAddress addr).isNone = false ∧
          alookup tc.storage_tries (keccakAddr addr) = none ∧
          e = .missingStorageTrie addr))) ∧
    (∀ st k v, v ≠ 0 →
      alookup (writeSlots st (k, v)).1.entries (TrieKey.fromHash (keccakSlot k))
          = some (rlpNat v) ∧
      (writeSlots st (k, v)).2 = st.2) ∧
    (∀ (st : StorageTrie × List TrieKey) k, (st.1.entries.map Prod.fst).Nodup →
      alookup (writeSlots st (k, 0)).1.entries (TrieKey.fromHash (keccakSlot k)) = none ∧
      (writeSlots st (k, 0)).2 =
        setExtend st.2 (st.1.reportingRemove (TrieKey.fromHash (keccakSlot k))).2) := by
  refine ⟨?_, ?_, ?_, ?_, ?_, ?_, ?_⟩
  · intro hnw
    unfold applyTrace
    simp only [hm, hd]
    rw [if_neg hnw]
  · intro hdw hempty ch code' bcc' hres
    unfold applyTrace
    simp only [hm, hd]
    rw [if_pos hdw, hres]
    simp only [hempty, if_true]
  · intro hdw hne ch code' bcc' hres storage0 hst
    unfold applyTrace
    simp only [hm, hd]
    rw [if_pos hdw]
    simp only [hres]
    rw [if_neg hne]
    cases hacct : tc.state_trie.getByAddress addr with
    | none =>
      rw [hacct] at hst
      simp only [Option.isNone_none, if_true] at hst
      subst hst
      simp only [hacct, Option.isNone_none, if_true]
    | some a =>
      rw [hacct] at hst
      simp only [Option.isNone_some, Bool.false_eq_true, if_false] at hst
      simp only [hacct, Option.isNone_some, Bool.false_eq_true, if_false, hst]
  · intro hdw hne hnotborn hstor r hres
    unfold applyTrace
    simp only [hm, hd]
    rw [if_pos hdw]
    simp only [hres]
    rw [if_neg hne]
    simp only [hnotborn, Bool.false_eq_true, if_false, hstor]
  · intro e he
    unfold applyTrace at he
    simp only [hm, hd] at he
    by_cases hdw : (¬(trc = TxnTrace.defaultTrace) ∧
        (if (tc.state_trie.getByAddress addr).isNone then status = true else True))
    · rw [if_pos hdw] at he
      refine ⟨hdw, ?_⟩
      cases hres : resolveCodeUsage
          ((tc.state_trie.getByAddress addr).getD AccountRlp.defaultAcct).code_hash
          trc.code_usage tc.code tc.batch_contract_code with
      | error e' =>
        simp only [hres] at he
        cases he
        exact Or.inl rfl
      | ok r =>
        simp only [hres] at he
        obtain ⟨ch, code', bcc'⟩ := r
        by_cases hemp : trc.storage_written = []
        · rw [if_pos hemp] at he
          cases he
        · rw [if_neg hemp] at he
          cases hacct : tc.state_trie.getByAddress addr with
          | none =>
            simp only [hacct, Option.isNone_none, if_true] at he
            cases he
          | some a =>
            simp only [hacct, Option.isNone_some, Bool.false_eq_true, if_false] at he
            cases hstor : alookup tc.storage_tries (keccakAddr addr) with
            | none =>
              simp only [hstor] at he
              cases he
              refine Or.inr ⟨hemp, ?_, ?_, rfl⟩
              · simp [hacct]
              · simp [hstor]
            | some s =>
              simp only [hstor] at he
              cases he
    · rw [if_neg hdw] at he
      cases he
  · intro st k v hv
    unfold writeSlots
    rw [if_neg hv]
    simp only [StorageTrie.insert]
    exact ⟨by rw [alookup_ainsert, if_pos rfl], trivial⟩
  · intro st k hnodup
    unfold writeSlots
    rw [if_pos rfl]
    simp only [StorageTrie.reportingRemove]
    exact ⟨alookup_aerase_self _ _ hnodup, trivial⟩

theorem trace_write_semantics_witness :
    applyTrace (ReceiptBytes.legacy true []) 7
      { balance := some 5, storage_written := [(0, 2)] }
      ⟨⟨[(keccakAddr 7, AccountRlp.defaultAcct)]⟩,
        [(keccakAddr 7, StorageTrie.defaultTrie)], Hash2Code.new, [[]], [], []⟩
      = .ok (sdFinish false 7
        { state_trie := StateMpt.insertByAddress
            ⟨[(keccakAddr 7, AccountRlp.defaultAcct)]⟩ 7
            { nonce := 0, balance := 5,
              storage_root := ([((0 : Nat), (2 : Nat))].foldl writeSlots
                (StorageTrie.defaultTrie,
                  setExtend [] [TrieKey.fromHash (keccakSlot 0)])).1.root,
              code_hash := H256.keccakBytes [] },
          storage_tries := ainsert [(keccakAddr 7, StorageTrie.defaultTrie)] (keccakAddr 7)
            ([((0 : Nat), (2 : Nat))].foldl writeSlots
              (StorageTrie.defaultTrie, setExtend [] [TrieKey.fromHash (keccakSlot 0)])).1,
          code := Hash2Code.new,
          batch_contract_code := [[]],
          storage_masks := ainsert [] 7
            ([((0 : Nat), (2 : Nat))].foldl writeSlots
              (StorageTrie.defaultTrie, setExtend [] [TrieKey.fromHash (keccakSlot 0)])).2,
          state_mask := setInsert [] (TrieKey.fromAddress 7) }) :=
  (trace_write_semantics (ReceiptBytes.legacy true []) 7
      { balance := some 5, storage_written := [(0, 2)] }
      ⟨⟨[(keccakAddr 7, AccountRlp.defaultAcct)]⟩,
        [(keccakAddr 7, StorageTrie.defaultTrie)], Hash2Code.new, [[]], [], []⟩
      (ReceiptBytes.legacy true []) true rfl rfl).2.2.1
    (by decide) (by decide) AccountRlp.defaultAcct.code_hash Hash2Code.new [[]]
    rfl StorageTrie.defaultTrie (by decide)

/-! ### Bookkeeping of the batch loop (towards C2, C6, C7) -/

theorem applyTxn_counters (slot : Option TxnInfo) (s s' : St)
    (h : applyTxn slot s = .ok s') :
    s'.txn_ix = s.txn_ix + (if slot.isSome then 1 else 0) ∧
    s'.loop_ix = s.loop_ix + 1 ∧
    s'.batch_gas_used = s.batch_gas_used + (slot.getD TxnInfo.defaultInfo).meta.gas_used := by
  simp only [applyTxn] at h
  split at h
  · cases h
  · rename_i s1 heq1
    split at h
    · cases h
    · rename_i tc heq
      cases h
      have haux : s1.txn_ix = s.txn_ix ∧ s1.loop_ix = s.loop_ix ∧
          s1.batch_gas_used = s.batch_gas_used := by
        split at heq1
        · cases heq1; exact ⟨rfl, rfl, rfl⟩
        · split at heq1
          · cases heq1
          · cases heq1; exact ⟨rfl, rfl, rfl⟩
      obtain ⟨h1, h2, h3⟩ := haux
      exact ⟨by simp [h1], by simp [h2], by simp [h3]⟩

theorem txnFold_counters :
    ∀ (slots : List (Option TxnInfo)) (s s' : St),
      exceptFoldl (fun st slot => applyTxn slot st) slots s = .ok s' →
      s'.txn_ix = s.txn_ix + countSome slots ∧
      s'.loop_ix = s.loop_ix + slots.length ∧
      s'.batch_gas_used = s.batch_gas_used + slotsGas slots := by
  intro slots
  induction slots with
  | nil =>
    intro s s' h
    cases h
    exact ⟨rfl, rfl, rfl⟩
  | cons slot rest ih =>
    intro s s' h
    simp only [exceptFoldl] at h
    cases h1 : applyTxn slot s with
    | error e =>
      rw [h1] at h
      cases h
    | ok s1 =>
      rw [h1] at h
      obtain ⟨ha, hb, hc⟩ := applyTxn_counters slot s s1 h1
      obtain ⟨ia, ib, ic⟩ := ih s1 s' h
      refine ⟨?_, ?_, ?_⟩
      · rw [ia, ha]
        simp only [countSome, List.countP_cons]
        cases slot <;> simp <;> omega
      · rw [ib, hb]
        simp only [List.length_cons]
        omega
      · rw [ic, hc]
        simp only [slotsGas, List.map_cons, List.sum_cons]
        omega

theorem runBatch_shape (ts pbbr loop_len : Nat) (s : LoopSt) (slots : List (Option TxnInfo))
    (s' : LoopSt) (h : runBatch ts pbbr loop_len s slots = .ok s') :
    s'.txn_ix = s.txn_ix + countSome slots ∧
    s'.loop_ix = s.loop_ix + slots.length ∧
    s'.hook_log = s.hook_log ++ (if s.txn_ix = 0 then [s.out.length] else []) ∧
    ∃ b, s'.out = s.out ++ [b] ∧
      b.gas_used = slotsGas slots ∧
      b.withdrawals = (if s.loop_ix + slots.length = loop_len then s.withdrawals else []) ∧
      s'.withdrawals = (if s.loop_ix + slots.length = loop_len then [] else s.withdrawals) := by
  simp only [runBatch] at h
  split at h
  · cases h
  · rename_i tc1 log1 heqHook
    split at h
    · cases h
    · rename_i st1 heqF
      obtain ⟨hts, hls, hgs⟩ := txnFold_counters slots _ st1 heqF
      have hlog : log1 = s.hook_log ++ (if s.txn_ix = 0 then [s.out.length] else []) := by
        split at heqHook
        · rename_i hz
          split at heqHook
          · cases heqHook
          · cases heqHook
            rw [if_pos hz]
        · rename_i hz
          cases heqHook
          rw [if_neg hz, List.append_nil]
      have hcond : st1.loop_ix = s.loop_ix + slots.length := by simpa using hls
      split at h
      · cases h
      · rename_i st2 sm2 bw w' heqW
        have hw : bw = (if s.loop_ix + slots.length = loop_len then s.withdrawals else []) ∧
            w' = (if s.loop_ix + slots.length = loop_len then [] else s.withdrawals) := by
          rw [← hcond]
          split at heqW
          · rename_i hL
            split at heqW
            · cases heqW
            · cases heqW
              rw [if_pos hL, if_pos hL]
              exact ⟨rfl, rfl⟩
          · rename_i hL
            cases heqW
            rw [if_neg hL, if_neg hL]
            exact ⟨rfl, rfl⟩
        cases h
        refine ⟨by simpa using hts, by simpa using hls, hlog, ?_⟩
        refine ⟨_, rfl, by simpa using hgs, hw.1, hw.2⟩

theorem middleGo_shape (ts pbbr loop_len : Nat) :
    ∀ (batches : List (List (Option TxnInfo))) (s s' : LoopSt),
      middleGo ts pbbr loop_len batches s = .ok s' →
      s'.txn_ix = s.txn_ix + countSome batches.flatten ∧
      s'.loop_ix = s.loop_ix + batches.flatten.length ∧
      s'.hook_log = s.hook_log ++ hookSchedule s.txn_ix s.out.length batches ∧
      s'.out.map Batch.gas_used = s.out.map Batch.gas_used ++ batches.map slotsGas ∧
      s'.out.length = s.out.length + batches.length := by
  intro batches
  induction batches with
  | nil =>
    intro s s' h
    cases h
    simp [hookSchedule, countSome]
  | cons b rest ih =>
    intro s s' h
    simp only [middleGo] at h
    cases h1 : runBatch ts pbbr loop_len s b with
    | error e =>
      rw [h1] at h
      cases h
    | ok s1 =>
      rw [h1] at h
      obtain ⟨ht, hl, hlog, bb, hout, hgas, hbw, hw⟩ := runBatch_shape _ _ _ _ _ _ h1
      obtain ⟨it, il, ilog, igas, ilen⟩ := ih s1 s' h
      have houtlen : s1.out.length = s.out.length + 1 := by
        rw [hout]; simp
      refine ⟨?_, ?_, ?_, ?_, ?_⟩
      · rw [it, ht]
        simp only [countSome, List.flatten_cons, List.countP_append]
        omega
      · rw [il, hl]
        simp only [List.flatten_cons, List.length_append]
        omega
      · rw [ilog, hlog, ht, houtlen]
        simp only [hookSchedule, List.append_assoc]
      · rw [igas, hout]
        simp only [List.map_append, List.map_cons, List.map_nil, List.append_assoc,
          List.map_cons]
        rw [hgas]
        rfl
      · rw [ilen, houtlen]
        simp only [List.length_cons]
        omega

theorem hookSchedule_mem :
    ∀ (batches : List (List (Option TxnInfo))) (t o i : Nat),
      i ∈ hookSchedule t o batches ↔
        ∃ j, j < batches.length ∧ i = o + j ∧
          t + countSome (batches.take j).flatten = 0 := by
  intro batches
  induction batches with
  | nil =>
    intro t o i
    simp [hookSchedule]
  | cons b rest ih =>
    intro t o i
    simp only [hookSchedule, List.mem_append]
    constructor
    · intro hmem
      rcases hmem with hfirst | hrest
      · refine ⟨0, by simp, ?_, ?_⟩
        · split_ifs at hfirst with hz
          · simp only [List.mem_singleton] at hfirst
            omega
          · simp at hfirst
        · split_ifs at hfirst with hz
          · simp [countSome, hz]
          · simp at hfirst
      · obtain ⟨j, hj, hij, hcnt⟩ := (ih _ _ _).mp hrest
        refine ⟨j + 1, by simpa using Nat.succ_lt_succ hj, by omega, ?_⟩
        simp only [List.take_succ_cons, List.flatten_cons, countSome,
          List.countP_append] at hcnt ⊢
        omega
    · rintro ⟨j, hj, hij, hcnt⟩
      cases j with
      | zero =>
        left
        have hz : t = 0 := by
          simpa [countSome] using hcnt
        rw [if_pos hz]
        simp [hij]
      | succ j' =>
        right
        refine (ih _ _ _).mpr ⟨j', by simpa using Nat.lt_of_succ_lt_succ hj, by omega, ?_⟩
        simp only [List.take_succ_cons, List.flatten_cons, countSome,
          List.countP_append] at hcnt ⊢
        omega

/-- **C2 (amended).**  In `middle`, the beacon hook runs at the start of
every batch entered with `txn_ix = 0`: always before the first batch, and
before a later batch exactly when all earlier batches consist only of
dummy transactions.  (It is *not* limited to the first batch.) -/
theorem beacon_hook_schedule (state : StateMpt) (storage : List (H256 × StorageTrie))
    (batches : List (List (Option TxnInfo))) (code : Hash2Code) (ts pbbr : Nat)
    (ws : List (Nat × Nat)) (bs : List Batch) (log : List Nat)
    (h : middle state storage batches code ts pbbr ws = .ok (bs, log)) :
    log = hookSchedule 0 0 batches ∧
    (∀ i, i ∈ log ↔ i < batches.length ∧ countSome (batches.take i).flatten = 0) ∧
    (batches ≠ [] → 0 ∈ log) := by
  simp only [middle] at h
  split at h
  · cases h
  · rename_i st' heqInit
    split at h
    · cases h
    · rename_i sfin heqGo
      cases h
      obtain ⟨_, _, hlog, _, _⟩ := middleGo_shape _ _ _ batches _ sfin heqGo
      have hlog' : sfin.hook_log = hookSchedule 0 0 batches := hlog
      refine ⟨hlog', ?_, ?_⟩
      · intro i
        rw [hlog', hookSchedule_mem]
        constructor
        · rintro ⟨j, hj, rfl, hcnt⟩
          exact ⟨by simpa using hj, by simpa using hcnt⟩
        · rintro ⟨hi, hcnt⟩
          exact ⟨i, hi, by omega, by simpa using hcnt⟩
      · intro hne
        rw [hlog', hookSchedule_mem]
        refine ⟨0, ?_, by omega, by simp [countSome]⟩
        cases batches with
        | nil => exact absurd rfl hne
        | cons b rest => simp

/-- **C2 (counterexample).**  With two batches consisting only of dummy
transactions (the batching of an empty block), the beacon hook executes
twice: before batch 0 and again before batch 1. -/
theorem beacon_hook_twice_counterexample :
    (middle ⟨[(keccakAddr BEACON_ROOTS_CONTRACT_ADDRESS,
        { AccountRlp.defaultAcct with storage_root := StorageTrie.defaultTrie.root })]⟩
      [(keccakAddr BEACON_ROOTS_CONTRACT_ADDRESS, StorageTrie.defaultTrie)]
      [[none], [none]] Hash2Code.new 0 0 []).toOption.map Prod.snd
      = some [0, 1] := by decide

theorem beacon_hook_schedule_witness :
    (middle ⟨[(keccakAddr BEACON_ROOTS_CONTRACT_ADDRESS,
        ⟨0, 0, StorageTrie.defaultTrie.root, H256.keccakBytes []⟩)]⟩
      [(keccakAddr BEACON_ROOTS_CONTRACT_ADDRESS, StorageTrie.defaultTrie)]
      [[some TxnInfo.defaultInfo], [none]] Hash2Code.new 0 0 []).toOption.map Prod.snd
      = some (hookSchedule 0 0 [[some TxnInfo.defaultInfo], [none]]) := by
  have hok : (middle ⟨[(keccakAddr BEACON_ROOTS_CONTRACT_ADDRESS,
      ⟨0, 0, StorageTrie.defaultTrie.root, H256.keccakBytes []⟩)]⟩
      [(keccakAddr BEACON_ROOTS_CONTRACT_ADDRESS, StorageTrie.defaultTrie)]
      [[some TxnInfo.defaultInfo], [none]] Hash2Code.new 0 0 []).toOption.isSome = true := by
    decide
  cases hrun : middle ⟨[(keccakAddr BEACON_ROOTS_CONTRACT_ADDRESS,
      ⟨0, 0, StorageTrie.defaultTrie.root, H256.keccakBytes []⟩)]⟩
      [(keccakAddr BEACON_ROOTS_CONTRACT_ADDRESS, StorageTrie.defaultTrie)]
      [[some TxnInfo.defaultInfo], [none]] Hash2Code.new 0 0 [] with
  | error e =>
    rw [hrun] at hok
    cases hok
  | ok r =>
    have hsched := (beacon_hook_schedule _ _ _ _ _ _ _ r.1 r.2 (by rw [hrun])).1
    simp only [Except.toOption, Option.map_some']
    rw [hsched]

/-! ### Withdrawals (towards C6) -/

theorem getByAddress_insertByAddress (st : StateMpt) (a : Nat) (acct : AccountRlp)
    (x : Nat) : (st.insertByAddress a acct).getByAddress x
      = if keccakAddr a = keccakAddr x then some acct else st.getByAddress x := by
  simp only [StateMpt.getByAddress, StateMpt.insertByAddress]
  rw [alookup_ainsert]

theorem applyWithdrawals_error_iff :
    ∀ (ws : List (Nat × Nat)) (st : StateMpt) (mask : List TrieKey),
      (∃ e, applyWithdrawals ws st mask = .error e) ↔
        ∃ p ∈ ws, st.getByAddress p.1 = none := by
  intro ws
  induction ws with
  | nil =>
    intro st mask
    simp [applyWithdrawals]
  | cons p rest ih =>
    intro st mask
    obtain ⟨a, amt⟩ := p
    simp only [applyWithdrawals]
    cases hget : st.getByAddress a with
    | none =>
      simp only
      constructor
      · intro _
        exact ⟨(a, amt), List.mem_cons_self _ _, hget⟩
      · intro _
        exact ⟨_, rfl⟩
    | some acct =>
      simp only
      rw [ih]
      constructor
      · rintro ⟨q, hq, hnone⟩
        rw [getByAddress_insertByAddress] at hnone
        split_ifs at hnone with hk
        exact ⟨q, List.mem_cons_of_mem _ hq, hnone⟩
      · rintro ⟨q, hq, hnone⟩
        rcases List.mem_cons.mp hq with rfl | hq'
        · rw [hget] at hnone
          exact Option.noConfusion hnone
        · refine ⟨q, hq', ?_⟩
          rw [getByAddress_insertByAddress]
          split_ifs with hk
          · exfalso
            have : st.getByAddress q.1 = st.getByAddress a := by
              simp only [StateMpt.getByAddress, hk]
            rw [this, hget] at hnone
            exact Option.noConfusion hnone
          · exact hnone

theorem applyWithdrawals_mask_mono :
    ∀ (ws : List (Nat × Nat)) (st : StateMpt) (mask : List TrieKey)
      (st' : StateMpt) (mask' : List TrieKey),
      applyWithdrawals ws st mask = .ok (st', mask') →
      ∀ x ∈ mask, x ∈ mask' := by
  intro ws
  induction ws with
  | nil =>
    intro st mask st' mask' h x hx
    cases h
    exact hx
  | cons p rest ih =>
    intro st mask st' mask' h x hx
    obtain ⟨a, amt⟩ := p
    simp only [applyWithdrawals] at h
    cases hget : st.getByAddress a with
    | none =>
      rw [hget] at h
      cases h
    | some acct =>
      rw [hget] at h
      exact ih _ _ _ _ h x ((mem_setInsert _ _ _).mpr (Or.inr hx))

theorem applyWithdrawals_mask :
    ∀ (ws : List (Nat × Nat)) (st : StateMpt) (mask : List TrieKey)
      (st' : StateMpt) (mask' : List TrieKey),
      applyWithdrawals ws st mask = .ok (st', mask') →
      ∀ p ∈ ws, TrieKey.fromAddress p.1 ∈ mask' := by
  intro ws
  induction ws with
  | nil =>
    intro st mask st' mask' h p hp
    simp at hp
  | cons q rest ih =>
    intro st mask st' mask' h p hp
    obtain ⟨a, amt⟩ := q
    simp only [applyWithdrawals] at h
    cases hget : st.getByAddress a with
    | none =>
      rw [hget] at h
      cases h
    | some acct =>
      rw [hget] at h
      rcases List.mem_cons.mp hp with rfl | hp'
      · exact applyWithdrawals_mask_mono _ _ _ _ _ h _
          ((mem_setInsert _ _ _).mpr (Or.inl rfl))
      · exact ih _ _ _ _ h p hp'

theorem applyWithdrawals_off :
    ∀ (ws : List (Nat × Nat)) (st : StateMpt) (mask : List TrieKey)
      (st' : StateMpt) (mask' : List TrieKey),
      applyWithdrawals ws st mask = .ok (st', mask') →
      ∀ x, (∀ p ∈ ws, keccakAddr p.1 ≠ keccakAddr x) →
        st'.getByAddress x = st.getByAddress x := by
  intro ws
  induction ws with
  | nil =>
    intro st mask st' mask' h x _
    cases h
    rfl
  | cons q rest ih =>
    intro st mask st' mask' h x hx
    obtain ⟨a, amt⟩ := q
    simp only [applyWithdrawals] at h
    cases hget : st.getByAddress a with
    | none =>
      rw [hget] at h
      cases h
    | some acct =>
      rw [hget] at h
      have hrec := ih _ _ _ _ h x (fun p hp => hx p (List.mem_cons_of_mem _ hp))
      rw [hrec, getByAddress_insertByAddress]
      rw [if_neg (hx (a, amt) (List.mem_cons_self _ _))]

theorem applyWithdrawals_balance :
    ∀ (ws : List (Nat × Nat)) (st : StateMpt) (mask : List TrieKey)
      (st' : StateMpt) (mask' : List TrieKey),
      applyWithdrawals ws st mask = .ok (st', mask') →
      (ws.map (fun p => keccakAddr p.1)).Nodup →
      ∀ p ∈ ws, ∃ a, st.getByAddress p.1 = some a ∧
        st'.getByAddress p.1 = some { a with balance := a.balance + p.2 } := by
  intro ws
  induction ws with
  | nil =>
    intro st mask st' mask' h _ p hp
    simp at hp
  | cons q rest ih =>
    intro st mask st' mask' h hnodup p hp
    obtain ⟨a, amt⟩ := q
    simp only [List.map_cons, List.nodup_cons] at hnodup
    obtain ⟨hnotin, hnodup'⟩ := hnodup
    simp only [applyWithdrawals] at h
    cases hget : st.getByAddress a with
    | none =>
      rw [hget] at h
      cases h
    | some acct =>
      rw [hget] at h
      rcases List.mem_cons.mp hp with rfl | hp'
      · refine ⟨acct, hget, ?_⟩
        have hoff := applyWithdrawals_off _ _ _ _ _ h a
          (fun q hq hk => hnotin (by rw [← hk]; exact List.mem_map_of_mem _ hq))
        rw [hoff, getByAddress_insertByAddress, if_pos rfl]
      · obtain ⟨a', ha', hb'⟩ := ih _ _ _ _ h hnodup' p hp'
        refine ⟨a', ?_, hb'⟩
        rw [getByAddress_insertByAddress] at ha'
        split_ifs at ha' with hk
        · exfalso
          exact hnotin (by rw [hk]; exact List.mem_map_of_mem _ hp')
        · exact ha'

theorem flatten_length_pos_of_ne_nil {α : Type} (l : List (List α))
    (hne : l ≠ []) (hall : ∀ b ∈ l, b ≠ []) : 1 ≤ l.flatten.length := by
  cases l with
  | nil => exact absurd rfl hne
  | cons b rest =>
    have hb : b ≠ [] := hall b (List.mem_cons_self _ _)
    cases b with
    | nil => exact absurd rfl hb
    | cons x xs => simp

theorem middleGo_withdrawals (ts pbbr loop_len : Nat) :
    ∀ (batches : List (List (Option TxnInfo))) (s s' : LoopSt),
      (∀ b ∈ batches, b ≠ []) →
      s.loop_ix + batches.flatten.length = loop_len →
      middleGo ts pbbr loop_len batches s = .ok s' →
      s'.out.map Batch.withdrawals
        = s.out.map Batch.withdrawals ++
          (List.replicate (batches.length - 1) [] ++
            if batches = [] then [] else [s.withdrawals]) ∧
      s'.withdrawals = (if batches = [] then s.withdrawals else []) := by
  intro batches
  induction batches with
  | nil =>
    intro s s' _ _ h
    cases h
    simp
  | cons b rest ih =>
    intro s s' hne hlen h
    simp only [middleGo] at h
    cases h1 : runBatch ts pbbr loop_len s b with
    | error e =>
      rw [h1] at h
      cases h
    | ok s1 =>
      rw [h1] at h
      obtain ⟨ht, hl, hlog, bb, hout, hgas, hbw, hw⟩ := runBatch_shape _ _ _ _ _ _ h1
      by_cases hrest : rest = []
      · subst hrest
        cases h
        have hcond : s.loop_ix + b.length = loop_len := by
          simpa using hlen
        rw [if_pos hcond] at hbw
        rw [if_pos hcond] at hw
        refine ⟨?_, by simpa using hw⟩
        rw [hout]
        simp [hbw]
      · have hflatpos : 1 ≤ rest.flatten.length :=
          flatten_length_pos_of_ne_nil rest hrest
            (fun x hx => hne x (List.mem_cons_of_mem _ hx))
        have hlen' : s.loop_ix + b.length + rest.flatten.length = loop_len := by
          simp only [List.flatten_cons, List.length_append] at hlen
          omega
        have hcond : ¬(s.loop_ix + b.length = loop_len) := by omega
        rw [if_neg hcond] at hbw
        rw [if_neg hcond] at hw
        have hlen1 : s1.loop_ix + rest.flatten.length = loop_len := by
          rw [hl]; omega
        obtain ⟨iout, iw⟩ := ih s1 s'
          (fun x hx => hne x (List.mem_cons_of_mem _ hx)) hlen1 h
        rw [if_neg hrest] at iout iw
        constructor
        · rw [iout, hout, hw]
          simp only [List.map_append, List.map_cons, List.map_nil, hbw]
          have hrl : 1 ≤ rest.length := by
            cases rest with
            | nil => exact absurd rfl hrest
            | cons c cs => simp
          have hrep : List.replicate ((b :: rest).length - 1) ([] : List (Nat × Nat))
              = [] :: List.replicate (rest.length - 1) [] := by
            simp only [List.length_cons, Nat.add_sub_cancel]
            cases hrl' : rest.length with
            | zero => omega
            | succ n =>
              rw [List.replicate_succ]
              simp
          rw [if_neg (by simp : ¬(b :: rest) = []), hrep]
          simp [List.append_assoc]
        · rw [iw]
          rw [if_neg (by simp : ¬(b :: rest) = [])]

theorem middle_withdrawals_out (state : StateMpt) (storage : List (H256 × StorageTrie))
    (batches : List (List (Option TxnInfo))) (code : Hash2Code) (ts pbbr : Nat)
    (ws : List (Nat × Nat)) (bs : List Batch) (log : List Nat)
    (hne : ∀ b ∈ batches, b ≠ [])
    (h : middle state storage batches code ts pbbr ws = .ok (bs, log)) :
    bs.map Batch.withdrawals
      = List.replicate (batches.length - 1) [] ++ (if batches = [] then [] else [ws]) := by
  simp only [middle] at h
  split at h
  · cases h
  · rename_i st' heqInit
    split at h
    · cases h
    · rename_i sfin heqGo
      cases h
      have hres := middleGo_withdrawals ts pbbr batches.flatten.length batches _ sfin
        hne (Nat.zero_add _) heqGo
      exact hres.1

/-- **C6.**  Withdrawal amounts are converted from Gwei to Wei (times 10^9)
at the entrypoint before replay; in `middle` (with non-empty batches, as
the batcher guarantees) every batch except the final one carries an empty
withdrawal list and the final batch carries the full converted list; the
application itself adds each amount to the named account's balance, adds
each address to the state mask, and fails exactly when a named address is
absent from the state trie. -/
theorem withdrawals_semantics :
    (∀ (state : StateMpt) (storage : List (H256 × StorageTrie)) (code_db : List (List Nat))
       (txn_info : List TxnInfo) (ws : List (Nat × Nat)) (ts pbbr hint : Nat),
      hint ≠ 0 →
      entrypoint state storage code_db txn_info ws ts pbbr hint
        = (match middle state storage (batch txn_info hint)
              (Hash2Code.extendList Hash2Code.new code_db) ts pbbr
              (ws.map (fun p => (p.1, p.2 * 10 ^ 9))) with
           | .error e => .error e
           | .ok r => .ok (genInputs r.1))) ∧
    (∀ (state : StateMpt) (storage : List (H256 × StorageTrie))
       (batches : List (List (Option TxnInfo))) (code : Hash2Code) (ts pbbr : Nat)
       (ws : List (Nat × Nat)) (bs : List Batch) (log : List Nat),
      (∀ b ∈ batches, b ≠ []) →
      middle state storage batches code ts pbbr ws = .ok (bs, log) →
      bs.map Batch.withdrawals
        = List.replicate (batches.length - 1) [] ++ (if batches = [] then [] else [ws])) ∧
    (∀ (ws : List (Nat × Nat)) (st : StateMpt) (mask : List TrieKey),
      (∃ e, applyWithdrawals ws st mask = .error e) ↔
        ∃ p ∈ ws, st.getByAddress p.1 = none) ∧
    (∀ (ws : List (Nat × Nat)) (st : StateMpt) (mask : List TrieKey)
       (st' : StateMpt) (mask' : List TrieKey),
      applyWithdrawals ws st mask = .ok (st', mask') →
      ∀ p ∈ ws, TrieKey.fromAddress p.1 ∈ mask') ∧
    (∀ (ws : List (Nat × Nat)) (st : StateMpt) (mask : List TrieKey)
       (st' : StateMpt) (mask' : List TrieKey),
      applyWithdrawals ws st mask = .ok (st', mask') →
      (ws.map (fun p => keccakAddr p.1)).Nodup →
      ∀ p ∈ ws, ∃ a, st.getByAddress p.1 = some a ∧
        st'.getByAddress p.1 = some { a with balance := a.balance + p.2 }) := by
  refine ⟨?_, ?_, applyWithdrawals_error_iff, applyWithdrawals_mask,
    applyWithdrawals_balance⟩
  · intro state storage code_db txn_info ws ts pbbr hint h0
    unfold entrypoint
    rw [if_neg h0]
    rfl
  · intro state storage batches code ts pbbr ws bs log hne h
    exact middle_withdrawals_out state storage batches code ts pbbr ws bs log hne h

theorem withdrawals_semantics_witness :
    entrypoint ⟨[]⟩ [] [] [] [] 0 0 1
      = (match middle ⟨[]⟩ [] (batch [] 1) (Hash2Code.extendList Hash2Code.new []) 0 0
            (([] : List (Nat × Nat)).map (fun p => (p.1, p.2 * 10 ^ 9))) with
         | .error e => .error e
         | .ok r => .ok (genInputs r.1)) :=
  withdrawals_semantics.1 ⟨[]⟩ [] [] [] [] 0 0 1 (by decide)

/-! ### Gas accounting (C7) -/

theorem genInputsGo_length (running : Nat) (bs : List Batch) :
    (genInputsGo running bs).length = bs.length := by
  induction bs generalizing running with
  | nil => rfl
  | cons b rest ih => simp [genInputsGo, ih]

theorem genInputsGo_gas :
    ∀ (bs : List Batch) (running i : Nat) (hi : i < (genInputsGo running bs).length),
      ((genInputsGo running bs).get ⟨i, hi⟩).gas_used_before
          = running + ((bs.take i).map Batch.gas_used).sum ∧
      ((genInputsGo running bs).get ⟨i, hi⟩).gas_used_after
          = running + ((bs.take (i + 1)).map Batch.gas_used).sum := by
  intro bs
  induction bs with
  | nil =>
    intro running i hi
    simp [genInputsGo] at hi
  | cons b rest ih =>
    intro running i hi
    cases i with
    | zero =>
      simp [genInputsGo, List.take_succ_cons]
    | succ i' =>
      have hi' : i' < (genInputsGo (running + b.gas_used) rest).length := by
        simpa [genInputsGo] using hi
      obtain ⟨hb, ha⟩ := ih (running + b.gas_used) i' hi'
      constructor
      · show ((genInputsGo (running + b.gas_used) rest).get ⟨i', hi'⟩).gas_used_before = _
        rw [hb]
        simp only [List.take_succ_cons, List.map_cons, List.sum_cons]
        omega
      · show ((genInputsGo (running + b.gas_used) rest).get ⟨i', hi'⟩).gas_used_after = _
        rw [ha]
        simp only [List.take_succ_cons, List.map_cons, List.sum_cons]
        omega

theorem sum_take_mono (l : List Nat) :
    ∀ i j, i ≤ j → (l.take i).sum ≤ (l.take j).sum := by
  induction l with
  | nil => intro i j _; simp
  | cons x xs ih =>
    intro i j hij
    cases i with
    | zero => simp
    | succ i' =>
      cases j with
      | zero => omega
      | succ j' =>
        simp only [List.take_succ_cons, List.sum_cons]
        have := ih i' j' (by omega)
        omega

theorem middle_gas (state : StateMpt) (storage : List (H256 × StorageTrie))
    (batches : List (List (Option TxnInfo))) (code : Hash2Code) (ts pbbr : Nat)
    (ws : List (Nat × Nat)) (bs : List Batch) (log : List Nat)
    (h : middle state storage batches code ts pbbr ws = .ok (bs, log)) :
    bs.map Batch.gas_used = batches.map slotsGas ∧ bs.length = batches.length := by
  simp only [middle] at h
  split at h
  · cases h
  · rename_i st' heqInit
    split at h
    · cases h
    · rename_i sfin heqGo
      cases h
      obtain ⟨_, _, _, hgas, hlen⟩ := middleGo_shape _ _ _ batches _ sfin heqGo
      exact ⟨hgas, hlen.trans (Nat.zero_add _)⟩

/-- **C7.**  Across the generation inputs emitted by the entrypoint, each
batch's `gas_used_after` equals the sum of the slot gas of that batch and
all preceding batches of the batching of the input transactions, each
batch's `gas_used_before` equals the previous batch's `gas_used_after`
(zero for the first), and `gas_used_after` is non-decreasing. -/
theorem gas_accounting (state : StateMpt) (storage : List (H256 × StorageTrie))
    (code_db : List (List Nat)) (txn_info : List TxnInfo) (ws : List (Nat × Nat))
    (ts pbbr hint : Nat) (gis : List GenerationInputs)
    (h : entrypoint state storage code_db txn_info ws ts pbbr hint = .ok gis) :
    gis.length = (batch txn_info hint).length ∧
    (∀ i (hi : i < gis.length),
      (gis.get ⟨i, hi⟩).gas_used_before
          = (((batch txn_info hint).take i).map slotsGas).sum ∧
      (gis.get ⟨i, hi⟩).gas_used_after
          = (((batch txn_info hint).take (i + 1)).map slotsGas).sum) ∧
    (∀ i (hi : i + 1 < gis.length),
      (gis.get ⟨i + 1, hi⟩).gas_used_before
        = (gis.get ⟨i, by omega⟩).gas_used_after) ∧
    (∀ i j (hij : i ≤ j) (hi : i < gis.length) (hj : j < gis.length),
      (gis.get ⟨i, hi⟩).gas_used_after ≤ (gis.get ⟨j, hj⟩).gas_used_after) := by
  simp only [entrypoint] at h
  split at h
  · cases h
  · split at h
    · cases h
    · rename_i r heqMid
      cases h
      obtain ⟨bs, log⟩ := r
      obtain ⟨hgas, hlen⟩ := middle_gas _ _ _ _ _ _ _ bs log heqMid
      have hlen' : (genInputs bs).length = (batch txn_info hint).length := by
        rw [genInputs, genInputsGo_length, hlen]
      have hmap : ∀ i, ((bs.take i).map Batch.gas_used).sum
          = (((batch txn_info hint).take i).map slotsGas).sum := by
        intro i
        rw [List.map_take, List.map_take, hgas]
      refine ⟨hlen', ?_, ?_, ?_⟩
      · intro i hi
        obtain ⟨hb, ha⟩ := genInputsGo_gas bs 0 i hi
        exact ⟨hb.trans (by rw [Nat.zero_add]; exact hmap i),
               ha.trans (by rw [Nat.zero_add]; exact hmap (i + 1))⟩
      · intro i hi
        obtain ⟨hb, _⟩ := genInputsGo_gas bs 0 (i + 1) hi
        obtain ⟨_, ha⟩ := genInputsGo_gas bs 0 i (Nat.lt_of_succ_lt hi)
        exact hb.trans ha.symm
      · intro i j hij hi hj
        obtain ⟨_, hai⟩ := genInputsGo_gas bs 0 i hi
        obtain ⟨_, haj⟩ := genInputsGo_gas bs 0 j hj
        have e1 : ((genInputsGo 0 bs).get ⟨i, hi⟩).gas_used_after
            = ((bs.map Batch.gas_used).take (i + 1)).sum := by
          rw [hai, Nat.zero_add, List.map_take]
        have e2 : ((genInputsGo 0 bs).get ⟨j, hj⟩).gas_used_after
            = ((bs.map Batch.gas_used).take (j + 1)).sum := by
          rw [haj, Nat.zero_add, List.map_take]
        have hmono := sum_take_mono (bs.map Batch.gas_used) (i + 1) (j + 1) (by omega)
        exact e1.trans_le (hmono.trans_eq e2.symm)

theorem gas_accounting_witness :
    (entrypoint ⟨[(keccakAddr BEACON_ROOTS_CONTRACT_ADDRESS,
        ⟨0, 0, StorageTrie.defaultTrie.root, H256.keccakBytes []⟩)]⟩
      [(keccakAddr BEACON_ROOTS_CONTRACT_ADDRESS, StorageTrie.defaultTrie)]
      [] [] [] 0 0 1).toOption.map List.length
      = some (batch ([] : List TxnInfo) 1).length := by
  have hok : (entrypoint ⟨[(keccakAddr BEACON_ROOTS_CONTRACT_ADDRESS,
      ⟨0, 0, StorageTrie.defaultTrie.root, H256.keccakBytes []⟩)]⟩
      [(keccakAddr BEACON_ROOTS_CONTRACT_ADDRESS, StorageTrie.defaultTrie)]
      [] [] [] 0 0 1).toOption.isSome = true := by decide
  cases hrun : entrypoint ⟨[(keccakAddr BEACON_ROOTS_CONTRACT_ADDRESS,
      ⟨0, 0, StorageTrie.defaultTrie.root, H256.keccakBytes []⟩)]⟩
      [(keccakAddr BEACON_ROOTS_CONTRACT_ADDRESS, StorageTrie.defaultTrie)]
      [] [] [] 0 0 1 with
  | error e =>
    rw [hrun] at hok
    cases hok
  | ok gis =>
    have hlen := (gas_accounting _ _ _ _ _ _ _ _ gis hrun).1
    simp only [Except.toOption, Option.map_some']
    rw [hlen]

end TD
